import Mathlib

/-!
# server/utils.go: the string set and the version comparator

A shallow embedding of `stringSet` and `versionSlice.Less` of `server/utils.go`,
with the properties of the specification stated and proved over it.

A Go `string` is a sequence of bytes; it is embedded as a list of byte values
(`Str`).  Comparison of strings (`>`) is bytewise lexicographic, as in the Go
runtime.  The library routines the code calls (`utils.SplitByFirstByte`,
`strings.Split`, `strconv.Atoi`) are embedded from their library sources, for
the arguments the code passes to them.
-/

namespace Server

/-- A Go string: its bytes, in order. -/
abbrev Str := List Nat

/-- The bytes of a string literal (UTF-8). -/
def bytes (s : String) : Str :=
  (s.data.flatMap String.utf8EncodeChar).map UInt8.toNat

/-! ## Go string comparison -/

/-- Go `a > b` on strings: bytewise lexicographic, a proper extension being the
greater one. -/
def strGt : Str → Str → Bool
  | [], _ => false
  | _ :: _, [] => true
  | x :: xs, y :: ys => if x = y then strGt xs ys else decide (y < x)

/-! ## Library routines -/

/-- Modelled from the spec: the routine `utils.SplitByFirstByte(s, c)` of the
package `github.com/ije/gox/utils`, which `versionSlice.Less` calls and whose
source is not part of this repository.  It returns the text before the first
byte `c` and the text after it, and `(s, "")` when `c` does not occur. -/
def SplitByFirstByte : Str → Nat → Str × Str
  | [], _ => ([], [])
  | x :: xs, c =>
    if x = c then ([], xs)
    else ((x :: (SplitByFirstByte xs c).1), (SplitByFirstByte xs c).2)

/-- The call `strings.Split(s, sep)` of the Go standard library for a one-byte
separator: the pieces of `s` between the occurrences of `sep`, one more than
there are occurrences (`[""]` for the empty string). -/
def Split : Str → Nat → List Str
  | [], _ => [[]]
  | x :: xs, sep =>
    if x = sep then [] :: Split xs sep
    else
      match Split xs sep with
      | [] => [[x]]
      | p :: ps => (x :: p) :: ps

/-- The errors of `strconv`. -/
inductive NumError where
  | ErrSyntax
  | ErrRange
  deriving DecidableEq, Repr

/-- The size of `int` in bits (`strconv.IntSize`). -/
def intSize : Nat := 64

/-- The loop of `strconv.ParseUint(s, 10, 0)`: `n` is the value read so far.  A
byte that is not a decimal digit is a syntax error with value 0; a value that
leaves the range of `uint64` ends the loop at once with the maximum value and a
range error. -/
def parseUintLoop (n : Nat) : Str → Nat × Option NumError
  | [] => (n, none)
  | c :: cs =>
    if 48 ≤ c ∧ c ≤ 57 then
      let d := c - 48
      if n ≥ (2 ^ 64 - 1) / 10 + 1 then (2 ^ intSize - 1, some NumError.ErrRange)
      else
        let n10 := n * 10
        let n1 := (n10 + d) % 2 ^ 64
        if n1 < n10 ∨ n1 > 2 ^ intSize - 1 then (2 ^ intSize - 1, some NumError.ErrRange)
        else parseUintLoop n1 cs
    else (0, some NumError.ErrSyntax)

/-- The call `strconv.ParseUint(s, 10, 0)`. -/
def ParseUint (s : Str) : Nat × Option NumError :=
  if s = [] then (0, some NumError.ErrSyntax) else parseUintLoop 0 s

/-- The call `strconv.ParseInt(s, 10, 0)`: an optional sign, then `ParseUint`;
a syntax error gives 0, a value out of the range of `int` gives the bound of
that sign and a range error. -/
def ParseInt (s : Str) : Int × Option NumError :=
  match s with
  | [] => (0, some NumError.ErrSyntax)
  | c :: cs =>
    let neg := decide (c = 45)
    let rest := if c = 43 ∨ c = 45 then cs else s
    let r := ParseUint rest
    if r.2 = some NumError.ErrSyntax then (0, some NumError.ErrSyntax)
    else
      let cutoff := 2 ^ (intSize - 1)
      if neg = false ∧ r.1 ≥ cutoff then ((cutoff : Int) - 1, some NumError.ErrRange)
      else if neg = true ∧ r.1 > cutoff then (-(cutoff : Int), some NumError.ErrRange)
      else if neg then (-(r.1 : Int), none) else ((r.1 : Int), none)

/-- The loop of the fast path of `strconv.Atoi`: `ch -= '0'; ch > 9` on a byte
is `ch < '0'` or `ch > '9'`. -/
def atoiFast (n : Nat) : Str → Option Nat
  | [] => some n
  | ch :: cs => if ch < 48 ∨ ch > 57 then none else atoiFast (n * 10 + (ch - 48)) cs

/-- The function `strconv.Atoi` of the Go standard library, for an `int` of 64
bits: the fast path for a text of fewer than 19 bytes, `ParseInt(s, 10, 0)`
otherwise.  The first component is the value returned, also in case of an
error. -/
def Atoi (s : Str) : Int × Option NumError :=
  if 0 < s.length ∧ s.length < 19 then
    match s with
    | [] => (0, some NumError.ErrSyntax)
    | c :: cs =>
      let body := if c = 45 ∨ c = 43 then cs else s
      if body.length < 1 then (0, some NumError.ErrSyntax)
      else
        match atoiFast 0 body with
        | none => (0, some NumError.ErrSyntax)
        | some n => if c = 45 then (-(n : Int), none) else ((n : Int), none)
  else ParseInt s

/-! ## versionSlice -/

/-- The body of `versionSlice.Less` on the two strings `a = s[i]` and
`b = s[j]`.  Indexing a slice out of range panics: `none`. -/
def lessStr (a b : Str) : Option Bool :=
  let avs := (SplitByFirstByte a 45).1
  let aStage := (SplitByFirstByte a 45).2
  let bvs := (SplitByFirstByte b 45).1
  let bStage := (SplitByFirstByte b 45).2
  let av := Split avs 46
  let bv := Split bvs 46
  if av.length ≠ 3 ∨ bv.length ≠ 3 then some (strGt avs bvs)
  else do
    let a0 ← av[0]?
    let b0 ← bv[0]?
    if a0 = b0 then
      let a1 ← av[1]?
      let b1 ← bv[1]?
      if a1 = b1 then
        let a2 ← av[2]?
        let b2 ← bv[2]?
        if a2 = b2 then some (strGt aStage bStage)
        else some (decide ((Atoi a2).1 > (Atoi b2).1))
      else some (decide ((Atoi a1).1 > (Atoi b1).1))
    else some (decide ((Atoi a0).1 > (Atoi b0).1))

/-- The method `versionSlice.Less(i, j)`. -/
def versionSlice.Less (s : List Str) (i j : Nat) : Option Bool := do
  let a ← s[i]?
  let b ← s[j]?
  lessStr a b

/-! ## stringSet

The lock of `stringSet` orders the calls; the embedding is of the calls in that
order.  The map `m` of type `map[string]struct{}` is embedded as the list of its
keys: the value of type `struct{}` holds nothing. -/

/-- The built-in `len(m)` of a map. -/
def mapLen (m : List Str) : Nat := m.length

/-- The built-in lookup `_, ok := m[key]` of a map. -/
def mapHas (m : List Str) (key : Str) : Bool := decide (key ∈ m)

/-- The built-in assignment `m[key] = struct{}{}` of a map: a key that is
present keeps its entry, a key that is absent gets one. -/
def mapSet (m : List Str) (key : Str) : List Str :=
  if key ∈ m then m else m ++ [key]

/-- The type `stringSet` (without its lock). -/
structure stringSet where
  m : List Str
  deriving DecidableEq, Repr

/-- The function `newStringSet`. -/
def newStringSet : stringSet := { m := [] }

/-- The method `stringSet.Size`. -/
def stringSet.Size (s : stringSet) : Nat := mapLen s.m

/-- The method `stringSet.Has`. -/
def stringSet.Has (s : stringSet) (key : Str) : Bool := mapHas s.m key

/-- The method `stringSet.Add`. -/
def stringSet.Add (s : stringSet) (key : Str) : stringSet := { m := mapSet s.m key }

/-- The orders in which `for key := range s.m` may visit the keys: each key of
the map once, in any order. -/
def rangeOrder (m : List Str) (order : List Str) : Prop := order.Perm m

instance (m order : List Str) : Decidable (rangeOrder m order) := by
  unfold rangeOrder; infer_instance

/-- One turn of the loop of `Values`: `a[i] = key; i++`.  The assignment to an
index out of range panics: `none`. -/
def valuesStep (st : List Str × Nat) (key : Str) : Option (List Str × Nat) :=
  if st.2 < st.1.length then some (st.1.set st.2 key, st.2 + 1) else none

/-- The method `stringSet.Values`, the loop visiting the keys in the order
`order`: `a` starts as `len(s.m)` empty strings. -/
def stringSet.Values (s : stringSet) (order : List Str) : Option (List Str) :=
  (order.foldlM valuesStep (List.replicate (mapLen s.m) [], 0)).map Prod.fst

/-- The set after the calls `Add(k)` for the keys `k` of `keys`, in order, on a
new set. -/
def addAll (keys : List Str) : stringSet := keys.foldl stringSet.Add newStringSet

/-! ## Vocabulary of the specification -/

/-- The numeric part of a version: the text before its first `-`. -/
def numericPart (a : Str) : Str := (SplitByFirstByte a 45).1

/-- The stage of a version: the text after its first `-`, empty without one. -/
def stagePart (a : Str) : Str := (SplitByFirstByte a 45).2

/-- The dot-separated components of the numeric part of a version. -/
def components (a : Str) : List Str := Split (numericPart a) 46

/-- The byte is a decimal digit. -/
def isDigit (c : Nat) : Bool := decide (48 ≤ c ∧ c ≤ 57)

/-- The number a text of decimal digits denotes. -/
def decVal (x : Str) : Nat := x.foldl (fun n c => n * 10 + (c - 48)) 0

/-- A decimal numeral without leading zeros that fits in an `int`. -/
def isNumeral (x : Str) : Bool :=
  decide (x ≠ []) && x.all isDigit && (decide (x.head? ≠ some 48) || decide (x = [48]))
    && decide (decVal x < 2 ^ (intSize - 1))

/-- The version `x.y.z` (no stage) or `x.y.z-stage`. -/
def mkVersion (x y z : Str) : Option Str → Str
  | none => x ++ 46 :: (y ++ 46 :: z)
  | some stage => x ++ 46 :: (y ++ 46 :: (z ++ 45 :: stage))

/-- The stage of `mkVersion x y z st`: empty without one. -/
def stageOf (st : Option Str) : Str := st.getD []

/-- The triple `(x, y, z)` is greater than `(x', y', z')`, major first, then
minor, then patch. -/
def tripleGt (x y z x' y' z' : Int) : Prop :=
  x > x' ∨ (x = x' ∧ (y > y' ∨ (y = y' ∧ z > z')))

instance (x y z x' y' z' : Int) : Decidable (tripleGt x y z x' y' z') := by
  unfold tripleGt; infer_instance

/-- The comparison `versionSlice.Less` makes of two versions of three
components `x.y.z` and `x'.y'.z'` with stages `sa` and `sb`. -/
def cmpThree (x y z sa x' y' z' sb : Str) : Bool :=
  if x = x' then
    if y = y' then
      if z = z' then strGt sa sb
      else decide ((Atoi z).1 > (Atoi z').1)
    else decide ((Atoi y).1 > (Atoi y').1)
  else decide ((Atoi x).1 > (Atoi x').1)

/-- The text `t` with a stage: `t` (no stage) or `t-stage`. -/
def withStage (t : Str) : Option Str → Str
  | none => t
  | some stage => t ++ 45 :: stage

/-- The integer a component counts as in the comparison: its number when
`strconv.Atoi` reads one, 0 when `strconv.Atoi` reports a syntax error, the
largest `int` when it reports a range error. -/
def componentValue (c : Str) : Int :=
  match (Atoi c).2 with
  | none => (Atoi c).1
  | some NumError.ErrSyntax => 0
  | some NumError.ErrRange => 2 ^ (intSize - 1) - 1

/-- The reading "parse the integer, or count it as 0". -/
def atoiOrZero (c : Str) : Int :=
  if (Atoi c).2 = none then (Atoi c).1 else 0

/-- The text is a decimal number: digits, at least one. -/
def isDecimal (c : Str) : Bool := decide (c ≠ []) && c.all isDigit

/-- A well-formed version: exactly three dot-separated components made of
decimal digits before the optional `-stage`. -/
def wellFormed (a : Str) : Bool :=
  decide ((components a).length = 3) && (components a).all isDecimal

/-- A well-formed version whose components are numerals without leading zeros
that fit in an `int`. -/
def isCanonical (a : Str) : Bool :=
  decide ((components a).length = 3) && (components a).all isNumeral

/-- Neither `Less(a, b)` nor `Less(b, a)`. -/
def incomparable (a b : Str) : Prop :=
  lessStr a b = some false ∧ lessStr b a = some false

instance (a b : Str) : Decidable (incomparable a b) := by
  unfold incomparable; infer_instance

/-- The slice is in sorted order for `sort.Sort`: every earlier element is
`Less` than every later one. -/
def inOrder (l : List Str) : Prop :=
  ∀ j, j < l.length → ∀ i, i < j → versionSlice.Less l i j = some true

instance (l : List Str) : Decidable (inOrder l) := by
  unfold inOrder; infer_instance

/-- An operation on a `stringSet`: a call of one of its four methods. -/
inductive Op where
  | Size
  | Has (key : Str)
  | Add (key : Str)
  | Values
  deriving DecidableEq

/-- The state of the set after one operation: `Add` assigns to the map, the
other three methods read it only. -/
def applyOp (s : stringSet) : Op → stringSet
  | Op.Add key => s.Add key
  | Op.Size => s
  | Op.Has _ => s
  | Op.Values => s

/-- The state of the set after a sequence of operations, in order. -/
def applyOps (s : stringSet) (ops : List Op) : stringSet := ops.foldl applyOp s

/-! ## Import paths -/

/-- The function `strings.HasPrefix(s, p)` of the Go standard library: `s` starts
with `p`. -/
def HasPrefix : Str → Str → Bool
  | _, [] => true
  | [], _ :: _ => false
  | x :: xs, y :: ys => decide (x = y) && HasPrefix xs ys

/-- The function `isRemoteImport`. -/
def isRemoteImport (importPath : Str) : Bool :=
  HasPrefix importPath (bytes "https://") || HasPrefix importPath (bytes "http://")

/-- The function `isLocalImport`. -/
def isLocalImport (importPath : Str) : Bool :=
  HasPrefix importPath (bytes "file://") || HasPrefix importPath (bytes "/") ||
    HasPrefix importPath (bytes "./") || HasPrefix importPath (bytes "../") ||
    decide (importPath = bytes ".") || decide (importPath = bytes "..")

/-! ## base64

The routines of `encoding/base64` and `strings` of the Go standard library that
`btoaUrl` and `atobUrl` call, for the encoding `base64.URLEncoding`: the URL
alphabet, padding with `=`, not strict. -/

/-- The alphabet `encodeURL` of `encoding/base64`. -/
def encodeURL : Str :=
  bytes "ABCDEFGHIJKLMNOPQRSTUVWXYZabcdefghijklmnopqrstuvwxyz0123456789-_"

/-- The table `enc.encode`: the byte of the alphabet at index `i`. -/
def encodeByte (i : Nat) : Nat := encodeURL.getD i 0

/-- The table `enc.decodeMap`: the index of the byte `c` in the alphabet, `0xff`
for a byte that is not in the alphabet. -/
def decodeMap (c : Nat) : Nat :=
  if encodeURL.indexOf c < 64 then encodeURL.indexOf c else 255

/-- The call `base64.URLEncoding.EncodeToString(src)`: three bytes give four bytes
of the alphabet; a last block of one or two bytes gives two or three, padded
with `=` to four. -/
def EncodeToString : Str → Str
  | a :: b :: c :: rest =>
    let val := a <<< 16 ||| b <<< 8 ||| c
    encodeByte (val >>> 18 &&& 63) :: encodeByte (val >>> 12 &&& 63) ::
      encodeByte (val >>> 6 &&& 63) :: encodeByte (val &&& 63) :: EncodeToString rest
  | [a, b] =>
    let val := a <<< 16 ||| b <<< 8
    [encodeByte (val >>> 18 &&& 63), encodeByte (val >>> 12 &&& 63),
      encodeByte (val >>> 6 &&& 63), 61]
  | [a] =>
    let val := a <<< 16
    [encodeByte (val >>> 18 &&& 63), encodeByte (val >>> 12 &&& 63), 61, 61]
  | [] => []

/-- The call `strings.TrimRight(s, c)` for a cutset of the one byte `c`: `s`
without the bytes `c` at its end. -/
def TrimRight (s : Str) (c : Nat) : Str := s.rdropWhile (fun x => decide (x = c))

/-- The error `base64.CorruptInputError` (its offset is not modelled). -/
inductive CorruptInputError where
  | corrupt
  deriving DecidableEq

/-- The loops `for si < len(src) && (src[si] == '\n' || src[si] == '\r')` of
`decodeQuantum`: the input after the newlines at its start. -/
def skipNewlines : Str → Str
  | [] => []
  | c :: cs => if c = 10 ∨ c = 13 then skipNewlines cs else c :: cs

/-- The end of `decodeQuantum`: the four values of 6 bits of `dbuf` (zero where
none was read) are three bytes, of which `dlen - 1` are returned. -/
def quantumBytes (dbuf : List Nat) (dlen : Nat) : Str :=
  let val := dbuf.getD 0 0 <<< 18 ||| dbuf.getD 1 0 <<< 12 ||| dbuf.getD 2 0 <<< 6 |||
    dbuf.getD 3 0
  let b0 := (val >>> 16) % 256
  let b1 := (val >>> 8) % 256
  let b2 := val % 256
  match dlen with
  | 4 => [b0, b1, b2]
  | 3 => [b0, b1]
  | 2 => [b0]
  | _ => []

/-- The end of a padded quantum in `decodeQuantum`: after the padding only
newlines may follow. -/
def finishPadding (dbuf : List Nat) (rest : Str) : Except CorruptInputError (Str × Str) :=
  if skipNewlines rest ≠ [] then Except.error CorruptInputError.corrupt
  else Except.ok ([], quantumBytes dbuf dbuf.length)

/-- The method `decodeQuantum` of `encoding/base64`: `dbuf` holds the `j` values
read so far, the argument is the input from `src[si]` on.  It returns the input
that is left and the bytes decoded, or an error. -/
def decodeQuantum (dbuf : List Nat) : Str → Except CorruptInputError (Str × Str)
  | [] =>
    if dbuf.length = 0 then Except.ok ([], [])
    else Except.error CorruptInputError.corrupt
  | c :: cs =>
    if decodeMap c ≠ 255 then
      if dbuf.length + 1 = 4 then Except.ok (cs, quantumBytes (dbuf ++ [decodeMap c]) 4)
      else decodeQuantum (dbuf ++ [decodeMap c]) cs
    else if c = 10 ∨ c = 13 then decodeQuantum dbuf cs
    else if c ≠ 61 then Except.error CorruptInputError.corrupt
    else if dbuf.length = 0 ∨ dbuf.length = 1 then Except.error CorruptInputError.corrupt
    else if dbuf.length = 2 then
      match skipNewlines cs with
      | [] => Except.error CorruptInputError.corrupt
      | c2 :: cs2 =>
        if c2 ≠ 61 then Except.error CorruptInputError.corrupt
        else finishPadding dbuf cs2
    else finishPadding dbuf cs

/-- The loop `for si < len(src)` of the method `Decode` of `encoding/base64`, with
fuel: `none` when the fuel runs out.  The two loops before it, which decode
eight and four bytes of the alphabet at once, give what `decodeQuantum` gives. -/
def decodeLoop : Nat → Str → Str → Option (Except CorruptInputError Str)
  | 0, _, _ => none
  | fuel + 1, src, out =>
    if src = [] then some (Except.ok out)
    else
      match decodeQuantum [] src with
      | Except.error e => some (Except.error e)
      | Except.ok (rest, decoded) => decodeLoop fuel rest (out ++ decoded)

/-- The call `base64.URLEncoding.DecodeString(s)`; every turn of the loop reads
a byte at least, so that fuel `len(s) + 1` is enough. -/
def DecodeString (s : Str) : Option (Except CorruptInputError Str) :=
  if s.length = 0 then some (Except.ok []) else decodeLoop (s.length + 1) s []

/-- The function `btoaUrl`. -/
def btoaUrl (s : Str) : Str := TrimRight (EncodeToString s) 61

/-- The function `atobUrl`: the string and the error it returns. -/
def atobUrl (s : Str) : Option (Str × Option CorruptInputError) :=
  let l := s.length % 4
  let s := if l > 0 then s ++ List.replicate (4 - l) 61 else s
  match DecodeString s with
  | none => none
  | some (Except.error err) => some ([], some err)
  | some (Except.ok data) => some (data, none)

/-- The comparison at a position where the components `u` of `a` and `v` of `b`
differ and `strconv.Atoi` fails on `u`; `ab` is the result of `Less(a, b)` and
`ba` that of `Less(b, a)`.  After a syntax error `u` counts as 0; after a range
error it counts as the largest `int`. -/
def failureRule (u v : Str) (ab ba : Option Bool) : Prop :=
  ((Atoi u).2 = some NumError.ErrSyntax →
    ab = some false ∧ ba = some (decide ((Atoi v).1 > 0))) ∧
  ((Atoi u).2 = some NumError.ErrRange →
    ab = some (decide ((Atoi v).1 < 2 ^ (intSize - 1) - 1)) ∧ ba = some false)

/-! ## Lemmas on strings -/

theorem strGt_irrefl (a : Str) : strGt a a = false := by
  induction a with
  | nil => rfl
  | cons x xs ih => simp [strGt, ih]

theorem strGt_asymm (a b : Str) (h : strGt a b = true) : strGt b a = false := by
  induction a generalizing b with
  | nil => simp [strGt] at h
  | cons x xs ih =>
    cases b with
    | nil => rfl
    | cons y ys =>
      simp only [strGt] at h ⊢
      by_cases hxy : x = y
      · subst hxy
        simp only [if_true] at h ⊢
        exact ih ys h
      · have hyx : ¬ y = x := fun e => hxy e.symm
        simp only [hxy, hyx, if_false, decide_eq_true_eq, decide_eq_false_iff_not] at h ⊢
        omega

theorem strGt_trans (a b c : Str) (h1 : strGt a b = true) (h2 : strGt b c = true) :
    strGt a c = true := by
  induction a generalizing b c with
  | nil => simp [strGt] at h1
  | cons x xs ih =>
    cases b with
    | nil => simp [strGt] at h2
    | cons y ys =>
      cases c with
      | nil => rfl
      | cons z zs =>
        simp only [strGt] at h1 h2 ⊢
        by_cases hxy : x = y
        · subst hxy
          simp only [if_true] at h1
          by_cases hxz : x = z
          · subst hxz
            simp only [if_true] at h2 ⊢
            exact ih ys zs h1 h2
          · simp only [hxz, if_false] at h2 ⊢
            exact h2
        · simp only [hxy, if_false, decide_eq_true_eq] at h1
          by_cases hyz : y = z
          · subst hyz
            simp only [hxy, if_false, decide_eq_true_eq]
            exact h1
          · simp only [hyz, if_false, decide_eq_true_eq] at h2
            have hxz : ¬ x = z := by omega
            simp only [hxz, if_false, decide_eq_true_eq]
            omega

theorem strGt_total (a b : Str) (h1 : strGt a b = false) (h2 : strGt b a = false) : a = b := by
  induction a generalizing b with
  | nil =>
    cases b with
    | nil => rfl
    | cons y ys => simp [strGt] at h2
  | cons x xs ih =>
    cases b with
    | nil => simp [strGt] at h1
    | cons y ys =>
      simp only [strGt] at h1 h2
      by_cases hxy : x = y
      · subst hxy
        simp only [if_true] at h1 h2
        rw [ih ys h1 h2]
      · have hyx : ¬ y = x := fun e => hxy e.symm
        simp only [hxy, hyx, if_false, decide_eq_false_iff_not] at h1 h2
        omega

theorem strGt_nil_right (s : Str) : strGt s [] = decide (s ≠ []) := by
  cases s <;> simp [strGt]

theorem strGt_nil_left (s : Str) : strGt [] s = false := by
  cases s <;> simp [strGt]

/-- The text before the first `c` stops at a `c` that follows a text without `c`. -/
theorem SplitByFirstByte_append (t s : Str) (c : Nat) (h : c ∉ t) :
    SplitByFirstByte (t ++ c :: s) c = (t, s) := by
  induction t with
  | nil => simp [SplitByFirstByte]
  | cons x xs ih =>
    have hx : ¬ x = c := fun e => h (by simp [e])
    have hxs : c ∉ xs := fun e => h (by simp [e])
    simp [SplitByFirstByte, hx, ih hxs]

theorem SplitByFirstByte_of_not_mem (t : Str) (c : Nat) (h : c ∉ t) :
    SplitByFirstByte t c = (t, []) := by
  induction t with
  | nil => simp [SplitByFirstByte]
  | cons x xs ih =>
    have hx : ¬ x = c := fun e => h (by simp [e])
    have hxs : c ∉ xs := fun e => h (by simp [e])
    simp [SplitByFirstByte, hx, ih hxs]

theorem Split_ne_nil (s : Str) (sep : Nat) : Split s sep ≠ [] := by
  induction s with
  | nil => simp [Split]
  | cons x xs ih =>
    unfold Split
    split
    · simp
    · split <;> simp

theorem Split_of_not_mem (t : Str) (sep : Nat) (h : sep ∉ t) : Split t sep = [t] := by
  induction t with
  | nil => simp [Split]
  | cons x xs ih =>
    have hx : ¬ x = sep := fun e => h (by simp [e])
    have hxs : sep ∉ xs := fun e => h (by simp [e])
    simp [Split, hx, ih hxs]

theorem Split_append (t s : Str) (sep : Nat) (h : sep ∉ t) :
    Split (t ++ sep :: s) sep = t :: Split s sep := by
  induction t with
  | nil => simp [Split]
  | cons x xs ih =>
    have hx : ¬ x = sep := fun e => h (by simp [e])
    have hxs : sep ∉ xs := fun e => h (by simp [e])
    simp [Split, hx, ih hxs]

/-! ## Lemmas on `versionSlice.Less` -/

/-- The fallback branch: one of the numeric parts has not three components. -/
theorem lessStr_fallback (a b : Str)
    (h : (components a).length ≠ 3 ∨ (components b).length ≠ 3) :
    lessStr a b = some (strGt (numericPart a) (numericPart b)) := by
  unfold components numericPart at h
  unfold lessStr numericPart
  simp only [if_pos h]

/-- The main branch: both numeric parts have three components. -/
theorem lessStr_three (a b x y z x' y' z' : Str)
    (ha : components a = [x, y, z]) (hb : components b = [x', y', z']) :
    lessStr a b = some (cmpThree x y z (stagePart a) x' y' z' (stagePart b)) := by
  unfold components numericPart at ha hb
  unfold lessStr cmpThree stagePart
  simp only [ha, hb]
  by_cases h0 : x = x' <;> by_cases h1 : y = y' <;> by_cases h2 : z = z' <;>
    simp [h0, h1, h2]

theorem components_length_three (a : Str) (h : (components a).length = 3) :
    ∃ x y z, components a = [x, y, z] :=
  List.length_eq_three.mp h

theorem numericPart_mkVersion (x y z : Str) (st : Option Str)
    (hx : 45 ∉ x) (hy : 45 ∉ y) (hz : 45 ∉ z) :
    numericPart (mkVersion x y z st) = x ++ 46 :: (y ++ 46 :: z) := by
  have hn : 45 ∉ x ++ 46 :: (y ++ 46 :: z) := by simp [hx, hy, hz]
  cases st with
  | none => simp only [numericPart, mkVersion, SplitByFirstByte_of_not_mem _ _ hn]
  | some s =>
    have e : mkVersion x y z (some s) = (x ++ 46 :: (y ++ 46 :: z)) ++ 45 :: s := by
      simp [mkVersion]
    simp only [numericPart, e, SplitByFirstByte_append _ _ _ hn]

theorem stagePart_mkVersion (x y z : Str) (st : Option Str)
    (hx : 45 ∉ x) (hy : 45 ∉ y) (hz : 45 ∉ z) :
    stagePart (mkVersion x y z st) = stageOf st := by
  have hn : 45 ∉ x ++ 46 :: (y ++ 46 :: z) := by simp [hx, hy, hz]
  cases st with
  | none => simp only [stagePart, mkVersion, SplitByFirstByte_of_not_mem _ _ hn, stageOf, Option.getD]
  | some s =>
    have e : mkVersion x y z (some s) = (x ++ 46 :: (y ++ 46 :: z)) ++ 45 :: s := by
      simp [mkVersion]
    simp only [stagePart, e, SplitByFirstByte_append _ _ _ hn, stageOf, Option.getD]

theorem components_mkVersion (x y z : Str) (st : Option Str)
    (hx : 45 ∉ x) (hy : 45 ∉ y) (hz : 45 ∉ z)
    (hx' : 46 ∉ x) (hy' : 46 ∉ y) (hz' : 46 ∉ z) :
    components (mkVersion x y z st) = [x, y, z] := by
  unfold components
  rw [numericPart_mkVersion x y z st hx hy hz, Split_append _ _ _ hx', Split_append _ _ _ hy',
    Split_of_not_mem _ _ hz']

theorem cmpThree_asymm (x y z sa x' y' z' sb : Str)
    (h : cmpThree x y z sa x' y' z' sb = true) : cmpThree x' y' z' sb x y z sa = false := by
  unfold cmpThree at h ⊢
  by_cases h0 : x = x'
  · subst h0
    by_cases h1 : y = y'
    · subst h1
      by_cases h2 : z = z'
      · subst h2
        simp only [if_true] at h ⊢
        exact strGt_asymm _ _ h
      · have h2' : ¬ z' = z := fun e => h2 e.symm
        simp only [if_true, h2, h2', if_false, decide_eq_true_eq, decide_eq_false_iff_not] at h ⊢
        omega
    · have h1' : ¬ y' = y := fun e => h1 e.symm
      simp only [if_true, h1, h1', if_false, decide_eq_true_eq, decide_eq_false_iff_not] at h ⊢
      omega
  · have h0' : ¬ x' = x := fun e => h0 e.symm
    simp only [h0, h0', if_false, decide_eq_true_eq, decide_eq_false_iff_not] at h ⊢
    omega

/-- The comparison never holds in both directions. -/
theorem lessStr_asymm (a b : Str) (h : lessStr a b = some true) : lessStr b a = some false := by
  by_cases hf : (components a).length ≠ 3 ∨ (components b).length ≠ 3
  · rw [lessStr_fallback a b hf] at h
    rw [lessStr_fallback b a hf.symm]
    exact congrArg some (strGt_asymm _ _ (Option.some.inj h))
  · simp only [not_or, not_not] at hf
    obtain ⟨x, y, z, ha⟩ := components_length_three a hf.1
    obtain ⟨x', y', z', hb⟩ := components_length_three b hf.2
    rw [lessStr_three a b _ _ _ _ _ _ ha hb] at h
    rw [lessStr_three b a _ _ _ _ _ _ hb ha]
    exact congrArg some (cmpThree_asymm _ _ _ _ _ _ _ _ (Option.some.inj h))

/-- The comparison always returns. -/
theorem lessStr_isSome (a b : Str) : ∃ r, lessStr a b = some r := by
  by_cases hf : (components a).length ≠ 3 ∨ (components b).length ≠ 3
  · exact ⟨_, lessStr_fallback a b hf⟩
  · simp only [not_or, not_not] at hf
    obtain ⟨x, y, z, ha⟩ := components_length_three a hf.1
    obtain ⟨x', y', z', hb⟩ := components_length_three b hf.2
    exact ⟨_, lessStr_three a b _ _ _ _ _ _ ha hb⟩

theorem Less_eq_lessStr (l : List Str) (i j : Nat) (hi : i < l.length) (hj : j < l.length) :
    versionSlice.Less l i j = lessStr (l.get ⟨i, hi⟩) (l.get ⟨j, hj⟩) := by
  simp [versionSlice.Less, List.getElem?_eq_getElem hi, List.getElem?_eq_getElem hj]

theorem inOrder_iff_pairwise (l : List Str) :
    inOrder l ↔ l.Pairwise (fun a b => lessStr a b = some true) := by
  rw [List.pairwise_iff_getElem]
  constructor
  · intro h i j hi hj hij
    have := h j hj i hij
    rw [Less_eq_lessStr l i j hi hj] at this
    exact this
  · intro h j hj i hij
    have hi : i < l.length := Nat.lt_trans hij hj
    rw [Less_eq_lessStr l i j hi hj]
    exact h i j hi hj hij

/-- Of the arrangements of a list at most one is in sorted order. -/
theorem inOrder_unique (l e : List Str) (hp : l.Perm e) (he : inOrder e) :
    inOrder l ↔ l = e := by
  constructor
  · intro hl
    rw [inOrder_iff_pairwise] at hl he
    refine List.Perm.eq_of_sorted ?_ hl he hp
    intro a b _ _ hab hba
    rw [lessStr_asymm a b hab] at hba
    exact absurd hba (by simp)
  · intro h
    rw [h]
    exact he

theorem SplitByFirstByte_fst_not_mem (a : Str) (c : Nat) : c ∉ (SplitByFirstByte a c).1 := by
  induction a with
  | nil => simp [SplitByFirstByte]
  | cons x xs ih =>
    unfold SplitByFirstByte
    split
    · simp
    · rename_i hx
      simp only [List.mem_cons, not_or]
      exact ⟨fun e => hx e.symm, ih⟩

theorem mem_of_mem_Split (s : Str) (sep : Nat) (p : Str) (hp : p ∈ Split s sep) (c : Nat)
    (hc : c ∈ p) : c ∈ s := by
  induction s generalizing p with
  | nil =>
    simp only [Split, List.mem_singleton] at hp
    subst hp
    exact hc
  | cons x xs ih =>
    unfold Split at hp
    split at hp
    · rcases List.mem_cons.mp hp with h | h
      · subst h; simp at hc
      · exact List.mem_cons_of_mem _ (ih p h hc)
    · split at hp
      · rename_i hnil
        exact absurd hnil (Split_ne_nil xs sep)
      · rename_i q qs hq
        rcases List.mem_cons.mp hp with h | h
        · subst h
          rcases List.mem_cons.mp hc with h' | h'
          · subst h'; simp
          · exact List.mem_cons_of_mem _ (ih q (by rw [hq]; simp) h')
        · exact List.mem_cons_of_mem _ (ih p (by rw [hq]; simp [h]) hc)

/-- No component of a numeric part holds a `-`. -/
theorem not_mem_component (a p : Str) (hp : p ∈ components a) : 45 ∉ p := by
  intro hc
  exact SplitByFirstByte_fst_not_mem a 45 (mem_of_mem_Split _ _ p hp 45 hc)

theorem numericPart_of_not_mem (a : Str) (h : 45 ∉ a) : numericPart a = a := by
  simp only [numericPart, SplitByFirstByte_of_not_mem a 45 h]

theorem stagePart_of_not_mem (a : Str) (h : 45 ∉ a) : stagePart a = [] := by
  simp only [stagePart, SplitByFirstByte_of_not_mem a 45 h]

theorem numericPart_withStage (t : Str) (st : Option Str) (h : 45 ∉ t) :
    numericPart (withStage t st) = t := by
  cases st with
  | none => exact numericPart_of_not_mem t h
  | some s => simp only [numericPart, withStage, SplitByFirstByte_append t s 45 h]

theorem stagePart_withStage (t : Str) (st : Option Str) (h : 45 ∉ t) :
    stagePart (withStage t st) = stageOf st := by
  cases st with
  | none => simp only [withStage, stagePart_of_not_mem t h, stageOf, Option.getD]
  | some s => simp only [stagePart, withStage, SplitByFirstByte_append t s 45 h, stageOf,
      Option.getD]

/-! ## Lemmas on numerals -/

theorem not_mem_of_all_isDigit (x : Str) (c : Nat) (hc : isDigit c = false)
    (h : x.all isDigit = true) : c ∉ x := by
  intro hm
  rw [List.all_eq_true] at h
  rw [h c hm] at hc
  exact Bool.noConfusion hc

theorem le_foldl_dec (cs : Str) (n : Nat) :
    n ≤ cs.foldl (fun n c => n * 10 + (c - 48)) n := by
  induction cs generalizing n with
  | nil => simp
  | cons c cs ih =>
    rw [List.foldl_cons]
    exact Nat.le_trans (by omega) (ih _)

theorem atoiFast_digits (cs : Str) (n : Nat) (h : cs.all isDigit = true) :
    atoiFast n cs = some (cs.foldl (fun n c => n * 10 + (c - 48)) n) := by
  induction cs generalizing n with
  | nil => simp [atoiFast]
  | cons c cs ih =>
    simp only [List.all_cons, Bool.and_eq_true, isDigit, decide_eq_true_eq] at h
    have hc : ¬ (c < 48 ∨ c > 57) := by omega
    simp only [atoiFast, hc, if_false, List.foldl_cons]
    exact ih _ (by simpa [isDigit] using h.2)

theorem parseUintLoop_digits (cs : Str) (n : Nat) (h : cs.all isDigit = true)
    (hv : cs.foldl (fun n c => n * 10 + (c - 48)) n < 2 ^ 64) :
    parseUintLoop n cs = (cs.foldl (fun n c => n * 10 + (c - 48)) n, none) := by
  induction cs generalizing n with
  | nil => simp [parseUintLoop]
  | cons c cs ih =>
    simp only [List.all_cons, Bool.and_eq_true, isDigit, decide_eq_true_eq] at h
    rw [List.foldl_cons] at hv ⊢
    have hle := le_foldl_dec cs (n * 10 + (c - 48))
    have hn1 : n * 10 + (c - 48) < 2 ^ 64 := Nat.lt_of_le_of_lt hle hv
    have hmod : (n * 10 + (c - 48)) % 2 ^ 64 = n * 10 + (c - 48) := Nat.mod_eq_of_lt hn1
    have hcut : ¬ n ≥ (2 ^ 64 - 1) / 10 + 1 := by
      norm_num at hn1 ⊢
      omega
    have hov : ¬ ((n * 10 + (c - 48)) % 2 ^ 64 < n * 10 ∨
        (n * 10 + (c - 48)) % 2 ^ 64 > 2 ^ intSize - 1) := by
      rw [hmod]
      simp only [intSize]
      norm_num at hn1 ⊢
      omega
    unfold parseUintLoop
    simp only [h.1, and_self, if_true, hcut, if_false, hov]
    rw [hmod]
    exact ih _ (by simpa [isDigit] using h.2) hv

/-- On a numeral `strconv.Atoi` returns the number it denotes, and no error. -/
theorem Atoi_numeral (x : Str) (h : isNumeral x = true) : Atoi x = ((decVal x : Int), none) := by
  simp only [isNumeral, Bool.and_eq_true, decide_eq_true_eq, intSize] at h
  obtain ⟨⟨⟨hne, hd⟩, _⟩, hv⟩ := h
  cases x with
  | nil => exact absurd rfl hne
  | cons c cs =>
    have hc : isDigit c = true := by
      simp only [List.all_cons, Bool.and_eq_true] at hd
      exact hd.1
    simp only [isDigit, decide_eq_true_eq] at hc
    have h45 : ¬ c = 45 := by omega
    have h43 : ¬ c = 43 := by omega
    unfold Atoi
    split
    · simp only [h45, h43, or_self, if_false, List.length_cons]
      have : ¬ cs.length + 1 < 1 := by omega
      simp only [this, if_false, atoiFast_digits (c :: cs) 0 hd]
      rfl
    · have hv64 : (c :: cs).foldl (fun n c => n * 10 + (c - 48)) 0 < 2 ^ 64 := by
        have : decVal (c :: cs) < 2 ^ 64 := Nat.lt_trans hv (by norm_num)
        exact this
      have hloop := parseUintLoop_digits (c :: cs) 0 hd hv64
      have hval : (c :: cs).foldl (fun n c => n * 10 + (c - 48)) 0 = decVal (c :: cs) := rfl
      rw [hval] at hloop
      simp only [ParseInt, h45, h43, or_self, if_false, decide_False, ParseUint, hloop]
      have hge : ¬ decVal (c :: cs) ≥ 2 ^ (intSize - 1) := by
        simp only [intSize]; omega
      simp [hge]

theorem foldl_dec_inj (xs ys : Str) (n m : Nat) (hl : xs.length = ys.length)
    (hx : xs.all isDigit = true) (hy : ys.all isDigit = true)
    (h : xs.foldl (fun n c => n * 10 + (c - 48)) n = ys.foldl (fun n c => n * 10 + (c - 48)) m) :
    n = m ∧ xs = ys := by
  induction xs generalizing ys n m with
  | nil =>
    cases ys with
    | nil => exact ⟨by simpa using h, rfl⟩
    | cons d ds => simp at hl
  | cons c cs ih =>
    cases ys with
    | nil => simp at hl
    | cons d ds =>
      simp only [List.all_cons, Bool.and_eq_true, isDigit, decide_eq_true_eq] at hx hy
      rw [List.foldl_cons, List.foldl_cons] at h
      have hcs : cs.all isDigit = true := by simpa [isDigit] using hx.2
      have hds : ds.all isDigit = true := by simpa [isDigit] using hy.2
      obtain ⟨h1, h2⟩ := ih ds _ _ (by simpa using hl) hcs hds h
      have hc := hx.1
      have hd := hy.1
      refine ⟨by omega, ?_⟩
      have : c = d := by omega
      rw [this, h2]

theorem foldl_dec_bounds (cs : Str) (n : Nat) (h : cs.all isDigit = true) :
    n * 10 ^ cs.length ≤ cs.foldl (fun n c => n * 10 + (c - 48)) n ∧
    cs.foldl (fun n c => n * 10 + (c - 48)) n < (n + 1) * 10 ^ cs.length := by
  induction cs generalizing n with
  | nil => simp
  | cons c cs ih =>
    simp only [List.all_cons, Bool.and_eq_true, isDigit, decide_eq_true_eq] at h
    have hcs : cs.all isDigit = true := by simpa [isDigit] using h.2
    obtain ⟨h1, h2⟩ := ih (n * 10 + (c - 48)) hcs
    rw [List.foldl_cons, List.length_cons, pow_succ]
    have hc := h.1
    constructor
    · calc n * (10 ^ cs.length * 10) = (n * 10) * 10 ^ cs.length := by ring
        _ ≤ (n * 10 + (c - 48)) * 10 ^ cs.length := Nat.mul_le_mul_right _ (by omega)
        _ ≤ _ := h1
    · calc _ < (n * 10 + (c - 48) + 1) * 10 ^ cs.length := h2
        _ ≤ ((n + 1) * 10) * 10 ^ cs.length := Nat.mul_le_mul_right _ (by omega)
        _ = (n + 1) * (10 ^ cs.length * 10) := by ring

/-- A numeral that does not start with `0` has as many digits as its number. -/
theorem decVal_bounds (c : Nat) (cs : Str) (h : (c :: cs).all isDigit = true) (hc : c ≠ 48) :
    10 ^ cs.length ≤ decVal (c :: cs) ∧ decVal (c :: cs) < 10 ^ (cs.length + 1) := by
  simp only [List.all_cons, Bool.and_eq_true, isDigit, decide_eq_true_eq] at h
  have hcs : cs.all isDigit = true := by simpa [isDigit] using h.2
  obtain ⟨h1, h2⟩ := foldl_dec_bounds cs (0 * 10 + (c - 48)) hcs
  have hd := h.1
  unfold decVal
  rw [List.foldl_cons]
  constructor
  · calc 10 ^ cs.length = 1 * 10 ^ cs.length := by ring
      _ ≤ (0 * 10 + (c - 48)) * 10 ^ cs.length := Nat.mul_le_mul_right _ (by omega)
      _ ≤ _ := h1
  · calc _ < (0 * 10 + (c - 48) + 1) * 10 ^ cs.length := h2
      _ ≤ 10 * 10 ^ cs.length := Nat.mul_le_mul_right _ (by omega)
      _ = 10 ^ (cs.length + 1) := by ring

/-- Two numerals of one number are one text. -/
theorem decVal_inj (x y : Str) (hx : isNumeral x = true) (hy : isNumeral y = true)
    (h : decVal x = decVal y) : x = y := by
  simp only [isNumeral, Bool.and_eq_true, Bool.or_eq_true, decide_eq_true_eq] at hx hy
  obtain ⟨⟨⟨hxne, hxd⟩, hx0⟩, _⟩ := hx
  obtain ⟨⟨⟨hyne, hyd⟩, hy0⟩, _⟩ := hy
  cases x with
  | nil => exact absurd rfl hxne
  | cons c cs =>
    cases y with
    | nil => exact absurd rfl hyne
    | cons d ds =>
      by_cases hc : c = 48
      · have hx1 : c :: cs = [48] := by
          rcases hx0 with h0 | h0
          · simp [hc] at h0
          · exact h0
        by_cases hd : d = 48
        · have hy1 : d :: ds = [48] := by
            rcases hy0 with h0 | h0
            · simp [hd] at h0
            · exact h0
          rw [hx1, hy1]
        · have hb := (decVal_bounds d ds hyd hd).1
          have hp : 0 < 10 ^ ds.length := Nat.pos_pow_of_pos _ (by norm_num)
          rw [← h, hx1] at hb
          simp [decVal] at hb
      · by_cases hd : d = 48
        · have hy1 : d :: ds = [48] := by
            rcases hy0 with h0 | h0
            · simp [hd] at h0
            · exact h0
          have hb := (decVal_bounds c cs hxd hc).1
          have hp : 0 < 10 ^ cs.length := Nat.pos_pow_of_pos _ (by norm_num)
          rw [h, hy1] at hb
          simp [decVal] at hb
        · obtain ⟨a1, a2⟩ := decVal_bounds c cs hxd hc
          obtain ⟨b1, b2⟩ := decVal_bounds d ds hyd hd
          rw [h] at a1 a2
          have l1 : cs.length < ds.length + 1 :=
            (Nat.pow_lt_pow_iff_right (by norm_num : 1 < 10)).mp (Nat.lt_of_le_of_lt a1 b2)
          have l2 : ds.length < cs.length + 1 :=
            (Nat.pow_lt_pow_iff_right (by norm_num : 1 < 10)).mp (Nat.lt_of_le_of_lt b1 a2)
          have hl : (c :: cs).length = (d :: ds).length := by simp; omega
          exact (foldl_dec_inj (c :: cs) (d :: ds) 0 0 hl hxd hyd h).2

theorem isNumeral_no_sep (x : Str) (h : isNumeral x = true) : 45 ∉ x ∧ 46 ∉ x := by
  simp only [isNumeral, Bool.and_eq_true] at h
  exact ⟨not_mem_of_all_isDigit x 45 (by decide) h.1.1.2,
    not_mem_of_all_isDigit x 46 (by decide) h.1.1.2⟩

/-- On numerals `cmpThree` is the comparison of the numbers, then of the stages. -/
theorem cmpThree_numerals (x y z sa x' y' z' sb : Str)
    (hx : isNumeral x = true) (hy : isNumeral y = true) (hz : isNumeral z = true)
    (hx' : isNumeral x' = true) (hy' : isNumeral y' = true) (hz' : isNumeral z' = true) :
    cmpThree x y z sa x' y' z' sb =
      decide (tripleGt (decVal x) (decVal y) (decVal z) (decVal x') (decVal y') (decVal z') ∨
        (decVal x = decVal x' ∧ decVal y = decVal y' ∧ decVal z = decVal z' ∧
          strGt sa sb = true)) := by
  unfold cmpThree
  rw [Atoi_numeral x hx, Atoi_numeral y hy, Atoi_numeral z hz, Atoi_numeral x' hx',
    Atoi_numeral y' hy', Atoi_numeral z' hz']
  have ex : x = x' ↔ (decVal x : Int) = decVal x' :=
    ⟨fun e => by rw [e], fun e => decVal_inj x x' hx hx' (by exact_mod_cast e)⟩
  have ey : y = y' ↔ (decVal y : Int) = decVal y' :=
    ⟨fun e => by rw [e], fun e => decVal_inj y y' hy hy' (by exact_mod_cast e)⟩
  have ez : z = z' ↔ (decVal z : Int) = decVal z' :=
    ⟨fun e => by rw [e], fun e => decVal_inj z z' hz hz' (by exact_mod_cast e)⟩
  have nx : decVal x = decVal x' ↔ (decVal x : Int) = decVal x' := by omega
  have ny : decVal y = decVal y' ↔ (decVal y : Int) = decVal y' := by omega
  have nz : decVal z = decVal z' ↔ (decVal z : Int) = decVal z' := by omega
  simp only [ex, ey, ez, nx, ny, nz, tripleGt]
  generalize (decVal x : Int) = a
  generalize (decVal y : Int) = b
  generalize (decVal z : Int) = c
  generalize (decVal x' : Int) = a'
  generalize (decVal y' : Int) = b'
  generalize (decVal z' : Int) = c'
  by_cases h0 : a = a'
  · by_cases h1 : b = b'
    · by_cases h2 : c = c'
      · simp [h0, h1, h2]
      · simp only [h0, h1, h2, if_true, if_false, decide_eq_decide]
        constructor
        · intro h; exact Or.inl (Or.inr ⟨trivial, Or.inr ⟨trivial, h⟩⟩)
        · rintro (h | h)
          · rcases h with h | ⟨_, h | ⟨_, h⟩⟩
            · omega
            · omega
            · exact h
          · exact h.2.2.1.elim
    · simp only [h0, h1, if_true, if_false, decide_eq_decide]
      constructor
      · intro h; exact Or.inl (Or.inr ⟨trivial, Or.inl h⟩)
      · rintro (h | h)
        · rcases h with h | ⟨_, h | ⟨h, _⟩⟩
          · omega
          · exact h
          · exact h.elim
        · exact h.2.1.elim
  · simp only [h0, if_false, decide_eq_decide]
    constructor
    · intro h; exact Or.inl (Or.inl h)
    · rintro (h | h)
      · rcases h with h | ⟨h, _⟩
        · exact h
        · exact h.elim
      · exact h.1.elim

/-! ## Lemmas on the value `strconv.Atoi` returns -/

theorem ParseInt_cases (c : Str) :
    ParseInt c = (0, some NumError.ErrSyntax) ∨ (∃ v, ParseInt c = (v, none)) ∨
      ParseInt c = (2 ^ (intSize - 1) - 1, some NumError.ErrRange) ∨
      (45 ∈ c ∧ ParseInt c = (-2 ^ (intSize - 1), some NumError.ErrRange)) := by
  cases c with
  | nil => left; rfl
  | cons x xs =>
    simp only [ParseInt]
    split_ifs with h1 h2 h3 h4 h5 h6 h7 h8 h9
    all_goals first
      | (left; rfl)
      | (right; left; exact ⟨_, rfl⟩)
      | (right; right; left; simp; done)
      | (right; right; right; simp only [decide_eq_true_eq] at *; simp_all)

/-- What `strconv.Atoi` returns: 0 with a syntax error, a number with no error,
or a bound of `int` with a range error, the lower bound only after a `-`. -/
theorem Atoi_cases (c : Str) :
    Atoi c = (0, some NumError.ErrSyntax) ∨ (∃ v, Atoi c = (v, none)) ∨
      Atoi c = (2 ^ (intSize - 1) - 1, some NumError.ErrRange) ∨
      (45 ∈ c ∧ Atoi c = (-2 ^ (intSize - 1), some NumError.ErrRange)) := by
  unfold Atoi
  split
  · cases c with
    | nil => left; rfl
    | cons x xs =>
      simp only []
      cases atoiFast 0 (if x = 45 ∨ x = 43 then xs else x :: xs) with
      | none => left; split_ifs <;> rfl
      | some n =>
        simp only []
        split_ifs
        all_goals first
          | (left; rfl)
          | (right; left; exact ⟨_, rfl⟩)
  · exact ParseInt_cases c

theorem Atoi_eq_componentValue (c : Str) (h : 45 ∉ c) : (Atoi c).1 = componentValue c := by
  unfold componentValue
  rcases Atoi_cases c with e | ⟨v, e⟩ | e | ⟨hm, _⟩
  · rw [e]
  · rw [e]
  · rw [e]
  · exact absurd hm h

/-- A text that starts with a byte that is neither a digit nor a sign is not a
number: `strconv.Atoi` returns 0 and a syntax error. -/
theorem Atoi_leading_text (x : Nat) (xs : Str) (hx : isDigit x = false) (h43 : x ≠ 43)
    (h45 : x ≠ 45) : Atoi (x :: xs) = (0, some NumError.ErrSyntax) := by
  simp only [isDigit, decide_eq_false_iff_not] at hx
  have hd : x < 48 ∨ x > 57 := by omega
  unfold Atoi
  split
  · simp [h43, h45, atoiFast, hd]
  · simp [ParseInt, h43, h45, ParseUint, parseUintLoop, hx]

theorem cmpThree_eq_componentValue (x y z sa x' y' z' sb : Str)
    (hx : 45 ∉ x) (hy : 45 ∉ y) (hz : 45 ∉ z) (hx' : 45 ∉ x') (hy' : 45 ∉ y') (hz' : 45 ∉ z') :
    cmpThree x y z sa x' y' z' sb = decide
      ((x ≠ x' ∧ componentValue x > componentValue x') ∨
        (x = x' ∧ y ≠ y' ∧ componentValue y > componentValue y') ∨
        (x = x' ∧ y = y' ∧ z ≠ z' ∧ componentValue z > componentValue z') ∨
        (x = x' ∧ y = y' ∧ z = z' ∧ strGt sa sb = true)) := by
  unfold cmpThree
  rw [Atoi_eq_componentValue x hx, Atoi_eq_componentValue y hy, Atoi_eq_componentValue z hz,
    Atoi_eq_componentValue x' hx', Atoi_eq_componentValue y' hy', Atoi_eq_componentValue z' hz']
  by_cases h0 : x = x' <;> by_cases h1 : y = y' <;> by_cases h2 : z = z' <;>
    simp [h0, h1, h2]

theorem atoiFast_lt (cs : Str) (n m : Nat) (h : atoiFast n cs = some m) :
    m < (n + 1) * 10 ^ cs.length := by
  induction cs generalizing n with
  | nil =>
    simp only [atoiFast, Option.some.injEq] at h
    simp only [List.length_nil, pow_zero, Nat.mul_one]
    omega
  | cons c cs ih =>
    unfold atoiFast at h
    split at h
    · exact absurd h (by simp)
    · rename_i hc
      have := ih _ h
      rw [List.length_cons, pow_succ]
      calc m < (n * 10 + (c - 48) + 1) * 10 ^ cs.length := this
        _ ≤ ((n + 1) * 10) * 10 ^ cs.length := Nat.mul_le_mul_right _ (by omega)
        _ = (n + 1) * (10 ^ cs.length * 10) := by ring

theorem atoiFast_lt_max (cs : Str) (m : Nat) (hl : cs.length < 19)
    (h : atoiFast 0 cs = some m) : (m : Int) ≤ 2 ^ (intSize - 1) - 1 := by
  have h1 := atoiFast_lt cs 0 m h
  have h2 : 10 ^ cs.length ≤ 10 ^ 18 := Nat.pow_le_pow_right (by norm_num) (by omega)
  have h3 : m < 10 ^ 18 := by omega
  simp only [intSize]
  norm_num at h3 ⊢
  omega

/-- Without a `-` the value `strconv.Atoi` returns is between 0 and the largest
`int`. -/
theorem Atoi_bounds (c : Str) (h45 : 45 ∉ c) :
    0 ≤ (Atoi c).1 ∧ (Atoi c).1 ≤ 2 ^ (intSize - 1) - 1 := by
  have hmax : (0 : Int) ≤ 2 ^ (intSize - 1) - 1 := by simp only [intSize]; norm_num
  cases c with
  | nil => exact ⟨by decide, by decide⟩
  | cons x xs =>
    have hx : ¬ x = 45 := fun e => h45 (by simp [e])
    unfold Atoi
    split
    · rename_i hl
      have hbl : (if x = 45 ∨ x = 43 then xs else x :: xs).length < 19 := by
        split
        · simp only [List.length_cons] at hl; omega
        · exact hl.2
      simp only []
      generalize (if x = 45 ∨ x = 43 then xs else x :: xs) = body at hbl ⊢
      simp only [hx, if_false]
      by_cases hlen : body.length < 1
      · rw [if_pos hlen]
        exact ⟨Int.le_refl _, hmax⟩
      · rw [if_neg hlen]
        cases hn : atoiFast 0 body with
        | none => exact ⟨Int.le_refl _, hmax⟩
        | some n => exact ⟨Int.ofNat_nonneg n, atoiFast_lt_max _ n hbl hn⟩
    · simp only [ParseInt, hx, decide_False, or_false]
      generalize ParseUint (if x = 43 then xs else x :: xs) = r
      by_cases h1 : r.2 = some NumError.ErrSyntax
      · simp only [h1, if_true]
        exact ⟨Int.le_refl _, hmax⟩
      · simp only [h1, if_false, true_and, Bool.false_eq_true, false_and]
        by_cases h2 : r.1 ≥ 2 ^ (intSize - 1)
        · simp only [h2, if_true]
          constructor
          · simp only [intSize]; norm_num
          · simp only [intSize]; norm_num
        · simp only [h2, if_false]
          refine ⟨Int.ofNat_nonneg _, ?_⟩
          simp only [intSize] at h2 ⊢
          norm_num at h2 ⊢
          omega

/-- The comparison at a position where `strconv.Atoi` fails on the component of
`a`. -/
theorem failureRule_position (u v : Str) (hu : 45 ∉ u) (hv : 45 ∉ v) :
    failureRule u v (some (decide ((Atoi u).1 > (Atoi v).1)))
      (some (decide ((Atoi v).1 > (Atoi u).1))) := by
  obtain ⟨v0, v1⟩ := Atoi_bounds v hv
  constructor
  · intro h
    have hu0 : (Atoi u).1 = 0 := by
      rcases Atoi_cases u with e | ⟨w, e⟩ | e | ⟨hm, _⟩
      · rw [e]
      · rw [e] at h; simp at h
      · rw [e] at h; simp at h
      · exact absurd hm hu
    rw [hu0]
    refine ⟨?_, rfl⟩
    simp only [Option.some.injEq, decide_eq_false_iff_not]
    omega
  · intro h
    have hu0 : (Atoi u).1 = 2 ^ (intSize - 1) - 1 := by
      rcases Atoi_cases u with e | ⟨w, e⟩ | e | ⟨hm, _⟩
      · rw [e] at h; simp at h
      · rw [e] at h; simp at h
      · rw [e]
      · exact absurd hm hu
    rw [hu0]
    refine ⟨rfl, ?_⟩
    simp only [Option.some.injEq, decide_eq_false_iff_not]
    omega

/-- The value `strconv.Atoi` returns with an error, on a text without `-`: 0 with
a syntax error, the largest `int` with a range error. -/
theorem Atoi_error_value (c : Str) (h45 : 45 ∉ c) :
    ((Atoi c).2 = some NumError.ErrSyntax → (Atoi c).1 = 0) ∧
    ((Atoi c).2 = some NumError.ErrRange → (Atoi c).1 = 2 ^ (intSize - 1) - 1) := by
  rcases Atoi_cases c with e | ⟨w, e⟩ | e | ⟨hm, _⟩
  · rw [e]; simp
  · rw [e]; simp
  · rw [e]; simp
  · exact absurd hm h45

/-- The result of `cmpThree` at the first position at which the texts differ. -/
theorem cmpThree_position (x y z sa x' y' z' sb : Str) :
    (x ≠ x' → cmpThree x y z sa x' y' z' sb = decide ((Atoi x).1 > (Atoi x').1)) ∧
    (x = x' → y ≠ y' → cmpThree x y z sa x' y' z' sb = decide ((Atoi y).1 > (Atoi y').1)) ∧
    (x = x' → y = y' → z ≠ z' →
      cmpThree x y z sa x' y' z' sb = decide ((Atoi z).1 > (Atoi z').1)) := by
  unfold cmpThree
  refine ⟨?_, ?_, ?_⟩
  · intro h0
    simp only [h0, if_false]
  · intro h0 h1
    simp only [h0, h1, if_true, if_false]
  · intro h0 h1 h2
    simp only [h0, h1, h2, if_true, if_false]

/-! ## Transitivity on versions of three components -/

theorem step_trans (u v w : Str) (p q r : Bool) (hrest : p = true → q = true → r = true)
    (h1 : (if u = v then p else decide ((Atoi u).1 > (Atoi v).1)) = true)
    (h2 : (if v = w then q else decide ((Atoi v).1 > (Atoi w).1)) = true) :
    (if u = w then r else decide ((Atoi u).1 > (Atoi w).1)) = true := by
  by_cases huv : u = v
  · subst huv
    by_cases hvw : u = w
    · subst hvw
      simp only [if_true] at h1 h2 ⊢
      exact hrest h1 h2
    · simp only [hvw, if_false] at h2 ⊢
      exact h2
  · simp only [huv, if_false, decide_eq_true_eq] at h1
    by_cases hvw : v = w
    · subst hvw
      simp only [huv, if_false, decide_eq_true_eq]
      exact h1
    · simp only [hvw, if_false, decide_eq_true_eq] at h2
      have huw : ¬ u = w := by
        intro e
        rw [e] at h1
        omega
      simp only [huw, if_false, decide_eq_true_eq]
      omega

theorem cmpThree_trans (x y z sa x' y' z' sb x'' y'' z'' sc : Str)
    (h1 : cmpThree x y z sa x' y' z' sb = true)
    (h2 : cmpThree x' y' z' sb x'' y'' z'' sc = true) :
    cmpThree x y z sa x'' y'' z'' sc = true := by
  unfold cmpThree at h1 h2 ⊢
  refine step_trans x x' x'' _ _ _ ?_ h1 h2
  intro g1 g2
  refine step_trans y y' y'' _ _ _ ?_ g1 g2
  intro k1 k2
  refine step_trans z z' z'' _ _ _ ?_ k1 k2
  exact strGt_trans sa sb sc

/-- The comparison is transitive on the versions of three components. -/
theorem lessStr_trans_three (a b c : Str) (ha : (components a).length = 3)
    (hb : (components b).length = 3) (hc : (components c).length = 3)
    (h1 : lessStr a b = some true) (h2 : lessStr b c = some true) :
    lessStr a c = some true := by
  obtain ⟨x, y, z, ea⟩ := components_length_three a ha
  obtain ⟨x', y', z', eb⟩ := components_length_three b hb
  obtain ⟨x'', y'', z'', ec⟩ := components_length_three c hc
  rw [lessStr_three a b _ _ _ _ _ _ ea eb] at h1
  rw [lessStr_three b c _ _ _ _ _ _ eb ec] at h2
  rw [lessStr_three a c _ _ _ _ _ _ ea ec]
  exact congrArg some (cmpThree_trans _ _ _ _ _ _ _ _ _ _ _ _ (Option.some.inj h1)
    (Option.some.inj h2))

theorem lessStr_irrefl (a : Str) : lessStr a a = some false := by
  obtain ⟨r, hr⟩ := lessStr_isSome a a
  cases r with
  | false => exact hr
  | true =>
    have := lessStr_asymm a a hr
    rw [hr] at this
    exact absurd this (by simp)

/-- On numerals, two versions neither of which is before the other have the
same components and the same stage. -/
theorem cmpThree_incomparable (x y z sa x' y' z' sb : Str)
    (hx : isNumeral x = true) (hy : isNumeral y = true) (hz : isNumeral z = true)
    (hx' : isNumeral x' = true) (hy' : isNumeral y' = true) (hz' : isNumeral z' = true)
    (h1 : cmpThree x y z sa x' y' z' sb = false) (h2 : cmpThree x' y' z' sb x y z sa = false) :
    x = x' ∧ y = y' ∧ z = z' ∧ sa = sb := by
  have key : ∀ u v : Str, isNumeral u = true → isNumeral v = true → ¬ u = v →
      decide ((Atoi u).1 > (Atoi v).1) = false → decide ((Atoi v).1 > (Atoi u).1) = false →
      False := by
    intro u v hu hv hne g1 g2
    rw [Atoi_numeral u hu, Atoi_numeral v hv] at g1 g2
    simp only [decide_eq_false_iff_not] at g1 g2
    exact hne (decVal_inj u v hu hv (by omega))
  unfold cmpThree at h1 h2
  by_cases h0 : x = x'
  · subst h0
    by_cases h1' : y = y'
    · subst h1'
      by_cases h2' : z = z'
      · subst h2'
        simp only [if_true] at h1 h2
        exact ⟨rfl, rfl, rfl, strGt_total _ _ h1 h2⟩
      · have h2s : ¬ z' = z := fun e => h2' e.symm
        simp only [if_true, h2', h2s, if_false] at h1 h2
        exact (key z z' hz hz' h2' h1 h2).elim
    · have h1s : ¬ y' = y := fun e => h1' e.symm
      simp only [if_true, h1', h1s, if_false] at h1 h2
      exact (key y y' hy hy' h1' h1 h2).elim
  · have h0s : ¬ x' = x := fun e => h0 e.symm
    simp only [h0, h0s, if_false] at h1 h2
    exact (key x x' hx hx' h0 h1 h2).elim

theorem isCanonical_components (a : Str) (h : isCanonical a = true) :
    ∃ x y z, components a = [x, y, z] ∧ isNumeral x = true ∧ isNumeral y = true ∧
      isNumeral z = true := by
  simp only [isCanonical, Bool.and_eq_true, decide_eq_true_eq] at h
  obtain ⟨x, y, z, e⟩ := components_length_three a h.1
  have h2 := h.2
  rw [e] at h2
  simp only [List.all_cons, List.all_nil, Bool.and_true, Bool.and_eq_true] at h2
  exact ⟨x, y, z, e, h2.1, h2.2.1, h2.2.2⟩

/-- Canonical versions neither of which is before the other have the same
components and the same stage. -/
theorem incomparable_canonical (a b : Str) (ha : isCanonical a = true)
    (hb : isCanonical b = true) (h : incomparable a b) :
    components a = components b ∧ stagePart a = stagePart b := by
  obtain ⟨x, y, z, ea, hx, hy, hz⟩ := isCanonical_components a ha
  obtain ⟨x', y', z', eb, hx', hy', hz'⟩ := isCanonical_components b hb
  obtain ⟨h1, h2⟩ := h
  rw [lessStr_three a b _ _ _ _ _ _ ea eb] at h1
  rw [lessStr_three b a _ _ _ _ _ _ eb ea] at h2
  obtain ⟨e1, e2, e3, e4⟩ := cmpThree_incomparable x y z _ x' y' z' _ hx hy hz hx' hy' hz'
    (Option.some.inj h1) (Option.some.inj h2)
  rw [ea, eb, e1, e2, e3]
  exact ⟨rfl, e4⟩

/-- The comparison looks at the components and the stage only. -/
theorem lessStr_congr (a a' b b' : Str) (ha : components a = components a')
    (hsa : stagePart a = stagePart a') (hb : components b = components b')
    (hsb : stagePart b = stagePart b') (h3a : (components a).length = 3)
    (h3b : (components b).length = 3) : lessStr a b = lessStr a' b' := by
  obtain ⟨x, y, z, ea⟩ := components_length_three a h3a
  obtain ⟨x', y', z', eb⟩ := components_length_three b h3b
  rw [lessStr_three a b _ _ _ _ _ _ ea eb,
    lessStr_three a' b' _ _ _ _ _ _ (ha ▸ ea) (hb ▸ eb), hsa, hsb]

/-! ## Lemmas on the string set -/

theorem mem_mapSet (m : List Str) (k x : Str) : x ∈ mapSet m k ↔ x ∈ m ∨ x = k := by
  unfold mapSet
  split
  · constructor
    · intro h; exact Or.inl h
    · rintro (h | h)
      · exact h
      · subst h; assumption
  · simp

theorem nodup_mapSet (m : List Str) (k : Str) (h : m.Nodup) : (mapSet m k).Nodup := by
  unfold mapSet
  split
  · exact h
  · rename_i hk
    exact List.Nodup.append h (List.nodup_singleton k) (by simpa using hk)

theorem mapSet_of_mem (m : List Str) (k : Str) (h : k ∈ m) : mapSet m k = m := by
  simp [mapSet, h]

theorem length_mapSet_of_not_mem (m : List Str) (k : Str) (h : k ∉ m) :
    (mapSet m k).length = m.length + 1 := by
  simp [mapSet, h]

theorem mem_foldl_Add (keys : List Str) (s : stringSet) (x : Str) :
    x ∈ (keys.foldl stringSet.Add s).m ↔ x ∈ s.m ∨ x ∈ keys := by
  induction keys generalizing s with
  | nil => simp
  | cons k ks ih =>
    rw [List.foldl_cons, ih]
    simp only [stringSet.Add, mem_mapSet, List.mem_cons]
    tauto

theorem nodup_foldl_Add (keys : List Str) (s : stringSet) (h : s.m.Nodup) :
    (keys.foldl stringSet.Add s).m.Nodup := by
  induction keys generalizing s with
  | nil => simpa using h
  | cons k ks ih =>
    rw [List.foldl_cons]
    exact ih _ (nodup_mapSet _ _ h)

theorem mem_addAll (keys : List Str) (x : Str) : x ∈ (addAll keys).m ↔ x ∈ keys := by
  simp [addAll, mem_foldl_Add, newStringSet]

theorem nodup_addAll (keys : List Str) : (addAll keys).m.Nodup :=
  nodup_foldl_Add keys newStringSet (by simp [newStringSet])

theorem perm_addAll_dedup (keys : List Str) : (addAll keys).m.Perm keys.dedup := by
  rw [List.perm_ext_iff_of_nodup (nodup_addAll keys) (List.nodup_dedup keys)]
  intro x
  rw [mem_addAll, List.mem_dedup]

theorem foldlM_valuesStep (order pre : List Str) (n : Nat) (h : order.length ≤ n) :
    order.foldlM valuesStep (pre ++ List.replicate n [], pre.length)
      = some (pre ++ order ++ List.replicate (n - order.length) [], pre.length + order.length) := by
  induction order generalizing pre n with
  | nil => simp
  | cons k ks ih =>
    obtain ⟨n', rfl⟩ : ∃ n', n = n' + 1 := ⟨n - 1, by simp at h; omega⟩
    have hlen : ks.length ≤ n' := by simp at h; omega
    have hstep : valuesStep (pre ++ List.replicate (n' + 1) [], pre.length) k
        = some ((pre ++ [k]) ++ List.replicate n' [], (pre ++ [k]).length) := by
      simp [valuesStep, List.replicate_succ, List.set_append]
    rw [List.foldlM_cons, hstep]
    simp only [Option.some_bind, Option.bind_eq_bind]
    rw [ih (pre ++ [k]) n' hlen]
    simp
    omega

theorem Values_eq (s : stringSet) (order : List Str) (h : order.length = s.m.length) :
    s.Values order = some order := by
  have := foldlM_valuesStep order [] (mapLen s.m) (by simp [mapLen, h])
  simp only [List.nil_append, List.length_nil, Nat.zero_add] at this
  unfold stringSet.Values
  rw [this]
  simp [mapLen, h]

/-! ## Lemmas on sequences of operations -/

theorem length_le_mapSet (m : List Str) (k : Str) : m.length ≤ (mapSet m k).length := by
  unfold mapSet
  split
  · exact Nat.le_refl _
  · simp

theorem Has_applyOp (s : stringSet) (op : Op) (j : Str) (h : s.Has j = true) :
    (applyOp s op).Has j = true := by
  cases op with
  | Add key =>
    simp only [stringSet.Has, mapHas, decide_eq_true_eq] at h
    simp only [applyOp, stringSet.Add, stringSet.Has, mapHas, decide_eq_true_eq, mem_mapSet]
    exact Or.inl h
  | Size => exact h
  | Has _ => exact h
  | Values => exact h

theorem Size_applyOp (s : stringSet) (op : Op) : s.Size ≤ (applyOp s op).Size := by
  cases op with
  | Add key => exact length_le_mapSet s.m key
  | Size => exact Nat.le_refl _
  | Has _ => exact Nat.le_refl _
  | Values => exact Nat.le_refl _

theorem Has_applyOps (ops : List Op) (s : stringSet) (j : Str) (h : s.Has j = true) :
    (applyOps s ops).Has j = true := by
  induction ops generalizing s with
  | nil => exact h
  | cons op ops ih => exact ih (applyOp s op) (Has_applyOp s op j h)

theorem Size_applyOps (ops : List Op) (s : stringSet) : s.Size ≤ (applyOps s ops).Size := by
  induction ops generalizing s with
  | nil => exact Nat.le_refl _
  | cons op ops ih => exact Nat.le_trans (Size_applyOp s op) (ih (applyOp s op))

/-! ## Lemmas on import paths -/

theorem HasPrefix_cons_head (x y : Nat) (xs ys : Str) (h : HasPrefix (x :: xs) (y :: ys) = true) :
    x = y := by
  simp only [HasPrefix, Bool.and_eq_true, decide_eq_true_eq] at h
  exact h.1

/-! ## Lemmas on base64 -/

theorem shiftLeft_lor (a b i : Nat) (h : b < 2 ^ i) : a <<< i ||| b = a * 2 ^ i + b := by
  rw [Nat.shiftLeft_eq, Nat.mul_comm, ← Nat.mul_add_lt_is_or h]

theorem mul_lor (a b i : Nat) (h : b < 2 ^ i) : a * 2 ^ i ||| b = a * 2 ^ i + b := by
  rw [Nat.mul_comm, ← Nat.mul_add_lt_is_or h]

theorem and_63 (x : Nat) : x &&& 63 = x % 64 :=
  Nat.and_pow_two_sub_one_eq_mod x 6

/-- Three bytes as one value of 24 bits. -/
theorem val_three (a b c : Nat) (hb : b < 256) (hc : c < 256) :
    a <<< 16 ||| b <<< 8 ||| c = a * 65536 + b * 256 + c := by
  have h1 : b <<< 8 = b * 256 := by rw [Nat.shiftLeft_eq]
  have h2 : a <<< 16 ||| b <<< 8 = a * 65536 + b * 256 := by
    rw [h1, shiftLeft_lor a (b * 256) 16 (by norm_num; omega)]
    norm_num
  rw [h2]
  have h3 : a * 65536 + b * 256 = (a * 256 + b) * 2 ^ 8 := by norm_num; ring
  rw [h3, mul_lor _ c 8 (by norm_num; omega)]

/-- Four values of 6 bits as one value of 24 bits. -/
theorem val_four (s0 s1 s2 s3 : Nat) (h1 : s1 < 64) (h2 : s2 < 64) (h3 : s3 < 64) :
    s0 <<< 18 ||| s1 <<< 12 ||| s2 <<< 6 ||| s3 = s0 * 262144 + s1 * 4096 + s2 * 64 + s3 := by
  have e1 : s1 <<< 12 = s1 * 4096 := by rw [Nat.shiftLeft_eq]
  have e2 : s2 <<< 6 = s2 * 64 := by rw [Nat.shiftLeft_eq]
  have a1 : s0 <<< 18 ||| s1 <<< 12 = s0 * 262144 + s1 * 4096 := by
    rw [e1, shiftLeft_lor s0 (s1 * 4096) 18 (by norm_num; omega)]
    norm_num
  have a2 : s0 * 262144 + s1 * 4096 = (s0 * 64 + s1) * 2 ^ 12 := by norm_num; ring
  have a3 : (s0 * 64 + s1) * 2 ^ 12 ||| s2 <<< 6 = (s0 * 64 + s1) * 2 ^ 12 + s2 * 64 := by
    rw [e2, mul_lor _ (s2 * 64) 12 (by norm_num; omega)]
  have a4 : (s0 * 64 + s1) * 2 ^ 12 + s2 * 64 = (s0 * 4096 + s1 * 64 + s2) * 2 ^ 6 := by
    norm_num; ring
  rw [a1, a2, a3, a4, mul_lor _ s3 6 (by norm_num; omega)]

/-- The bytes of the alphabet decode to their index and are neither padding nor
newlines. -/
theorem decodeMap_encodeByte (i : Nat) (h : i < 64) :
    decodeMap (encodeByte i) = i ∧ encodeByte i ≠ 61 := by
  have key : ∀ i, i < 64 → decodeMap (encodeByte i) = i ∧ encodeByte i ≠ 61 := by decide
  exact key i h

theorem decodeMap_pad : decodeMap 61 = 255 := by decide

/-- Reading a byte of the alphabet in `decodeQuantum`. -/
theorem decodeQuantum_sextet (dbuf : List Nat) (i : Nat) (cs : Str) (h : i < 64) :
    decodeQuantum dbuf (encodeByte i :: cs) =
      if dbuf.length + 1 = 4 then Except.ok (cs, quantumBytes (dbuf ++ [i]) 4)
      else decodeQuantum (dbuf ++ [i]) cs := by
  have hd := (decodeMap_encodeByte i h).1
  have hne : decodeMap (encodeByte i) ≠ 255 := by rw [hd]; omega
  rw [decodeQuantum, if_pos hne, hd]

/-- A full quantum: four bytes of the alphabet. -/
theorem decodeQuantum_four (s0 s1 s2 s3 : Nat) (rest : Str) (h0 : s0 < 64) (h1 : s1 < 64)
    (h2 : s2 < 64) (h3 : s3 < 64) :
    decodeQuantum [] (encodeByte s0 :: encodeByte s1 :: encodeByte s2 :: encodeByte s3 :: rest) =
      Except.ok (rest, quantumBytes [s0, s1, s2, s3] 4) := by
  rw [decodeQuantum_sextet [] s0 _ h0, if_neg (by simp), decodeQuantum_sextet _ s1 _ h1,
    if_neg (by simp), decodeQuantum_sextet _ s2 _ h2, if_neg (by simp),
    decodeQuantum_sextet _ s3 _ h3, if_pos (by simp)]
  rfl

/-- A last quantum of three bytes of the alphabet and one `=`. -/
theorem decodeQuantum_three (s0 s1 s2 : Nat) (h0 : s0 < 64) (h1 : s1 < 64) (h2 : s2 < 64) :
    decodeQuantum [] [encodeByte s0, encodeByte s1, encodeByte s2, 61] =
      Except.ok ([], quantumBytes [s0, s1, s2] 3) := by
  rw [decodeQuantum_sextet [] s0 _ h0, if_neg (by simp), decodeQuantum_sextet _ s1 _ h1,
    if_neg (by simp), decodeQuantum_sextet _ s2 _ h2, if_neg (by simp)]
  simp [decodeQuantum, decodeMap_pad, finishPadding, skipNewlines]

/-- A last quantum of two bytes of the alphabet and two `=`. -/
theorem decodeQuantum_two (s0 s1 : Nat) (h0 : s0 < 64) (h1 : s1 < 64) :
    decodeQuantum [] [encodeByte s0, encodeByte s1, 61, 61] =
      Except.ok ([], quantumBytes [s0, s1] 2) := by
  rw [decodeQuantum_sextet [] s0 _ h0, if_neg (by simp), decodeQuantum_sextet _ s1 _ h1,
    if_neg (by simp)]
  simp [decodeQuantum, decodeMap_pad, finishPadding, skipNewlines]

theorem val_two (a b : Nat) (hb : b < 256) : a <<< 16 ||| b <<< 8 = a * 65536 + b * 256 := by
  have h1 : b <<< 8 = b * 256 := by rw [Nat.shiftLeft_eq]
  rw [h1, shiftLeft_lor a (b * 256) 16 (by norm_num; omega)]
  norm_num

theorem sextet_lt (v k : Nat) : v >>> k &&& 63 < 64 := by
  rw [and_63]
  exact Nat.mod_lt _ (by norm_num)

/-- Three bytes, encoded as four values of 6 bits, decode to themselves. -/
theorem quantumBytes_three (a b c : Nat) (ha : a < 256) (hb : b < 256) (hc : c < 256) :
    quantumBytes
      [(a <<< 16 ||| b <<< 8 ||| c) >>> 18 &&& 63, (a <<< 16 ||| b <<< 8 ||| c) >>> 12 &&& 63,
        (a <<< 16 ||| b <<< 8 ||| c) >>> 6 &&& 63, (a <<< 16 ||| b <<< 8 ||| c) &&& 63] 4 =
      [a, b, c] := by
  have hs : (a <<< 16 ||| b <<< 8 ||| c) &&& 63 < 64 := by
    rw [and_63]; exact Nat.mod_lt _ (by norm_num)
  simp only [quantumBytes, List.getD_cons_zero, List.getD_cons_succ]
  rw [val_four _ _ _ _ (sextet_lt _ 12) (sextet_lt _ 6) hs]
  simp only [and_63, Nat.shiftRight_eq_div_pow, val_three a b c hb hc]
  norm_num
  refine ⟨?_, ?_, ?_⟩ <;> omega

/-- Two bytes, encoded as three values of 6 bits, decode to themselves. -/
theorem quantumBytes_two (a b : Nat) (ha : a < 256) (hb : b < 256) :
    quantumBytes
      [(a <<< 16 ||| b <<< 8) >>> 18 &&& 63, (a <<< 16 ||| b <<< 8) >>> 12 &&& 63,
        (a <<< 16 ||| b <<< 8) >>> 6 &&& 63] 3 = [a, b] := by
  simp only [quantumBytes, List.getD_cons_zero, List.getD_cons_succ, List.getD_nil]
  rw [val_four _ _ _ 0 (sextet_lt _ 12) (sextet_lt _ 6) (by norm_num)]
  simp only [and_63, Nat.shiftRight_eq_div_pow, val_two a b hb]
  norm_num
  refine ⟨?_, ?_⟩ <;> omega

/-- One byte, encoded as two values of 6 bits, decodes to itself. -/
theorem quantumBytes_one (a : Nat) (ha : a < 256) :
    quantumBytes [(a <<< 16) >>> 18 &&& 63, (a <<< 16) >>> 12 &&& 63] 2 = [a] := by
  simp only [quantumBytes, List.getD_cons_zero, List.getD_cons_succ, List.getD_nil]
  rw [val_four _ _ 0 0 (sextet_lt _ 12) (by norm_num) (by norm_num)]
  simp only [and_63, Nat.shiftRight_eq_div_pow, Nat.shiftLeft_eq]
  norm_num
  omega

/-- Decoding what `EncodeToString` gives: the bytes encoded, with fuel for one turn
of the loop for each block of three bytes and one more. -/
theorem decodeLoop_EncodeToString (s : Str) (hs : ∀ c ∈ s, c < 256) (fuel : Nat) (out : Str)
    (hf : (s.length + 2) / 3 < fuel) :
    decodeLoop fuel (EncodeToString s) out = some (Except.ok (out ++ s)) := by
  induction s using EncodeToString.induct generalizing fuel out with
  | case1 a b c rest ih =>
    obtain ⟨f, rfl⟩ : ∃ f, fuel = f + 1 := ⟨fuel - 1, by omega⟩
    have ha : a < 256 := hs a (by simp)
    have hb : b < 256 := hs b (by simp)
    have hc : c < 256 := hs c (by simp)
    have hrest : ∀ x ∈ rest, x < 256 := fun x hx => hs x (by simp [hx])
    have hs3 : (a <<< 16 ||| b <<< 8 ||| c) &&& 63 < 64 := by
      rw [and_63]; exact Nat.mod_lt _ (by norm_num)
    have hf' : (rest.length + 2) / 3 < f := by
      simp only [List.length_cons] at hf
      omega
    rw [EncodeToString, decodeLoop, if_neg (by simp),
      decodeQuantum_four _ _ _ _ _ (sextet_lt _ 18) (sextet_lt _ 12) (sextet_lt _ 6) hs3]
    simp only []
    rw [quantumBytes_three a b c ha hb hc, ih hrest f _ hf']
    simp
  | case2 a b =>
    obtain ⟨f, rfl⟩ : ∃ f, fuel = f + 1 := ⟨fuel - 1, by omega⟩
    obtain ⟨g, rfl⟩ : ∃ g, f = g + 1 := ⟨f - 1, by simp only [List.length_cons] at hf; omega⟩
    have ha : a < 256 := hs a (by simp)
    have hb : b < 256 := hs b (by simp)
    rw [EncodeToString, decodeLoop, if_neg (by simp),
      decodeQuantum_three _ _ _ (sextet_lt _ 18) (sextet_lt _ 12) (sextet_lt _ 6)]
    simp only []
    rw [quantumBytes_two a b ha hb, decodeLoop, if_pos rfl]
  | case3 a =>
    obtain ⟨f, rfl⟩ : ∃ f, fuel = f + 1 := ⟨fuel - 1, by omega⟩
    obtain ⟨g, rfl⟩ : ∃ g, f = g + 1 := ⟨f - 1, by simp only [List.length_cons] at hf; omega⟩
    have ha : a < 256 := hs a (by simp)
    rw [EncodeToString, decodeLoop, if_neg (by simp),
      decodeQuantum_two _ _ (sextet_lt _ 18) (sextet_lt _ 12)]
    simp only []
    rw [quantumBytes_one a ha, decodeLoop, if_pos rfl]
  | case4 =>
    obtain ⟨f, rfl⟩ : ∃ f, fuel = f + 1 := ⟨fuel - 1, by omega⟩
    simp [EncodeToString, decodeLoop]

/-- The shape of what `EncodeToString` gives: bytes of the alphabet, then the
padding that completes the last block of four. -/
theorem EncodeToString_shape (s : Str) :
    ∃ (body : Str) (k : Nat), EncodeToString s = body ++ List.replicate k 61 ∧ 61 ∉ body ∧
      (k = 0 ∧ body.length % 4 = 0 ∨ k = 1 ∧ body.length % 4 = 3 ∨
        k = 2 ∧ body.length % 4 = 2) ∧
      body.length + k = 4 * ((s.length + 2) / 3) := by
  induction s using EncodeToString.induct with
  | case1 a b c rest ih =>
    obtain ⟨body, k, e, hb, hk, hl⟩ := ih
    have hs3 : (a <<< 16 ||| b <<< 8 ||| c) &&& 63 < 64 := by
      rw [and_63]; exact Nat.mod_lt _ (by norm_num)
    refine ⟨encodeByte ((a <<< 16 ||| b <<< 8 ||| c) >>> 18 &&& 63) ::
      encodeByte ((a <<< 16 ||| b <<< 8 ||| c) >>> 12 &&& 63) ::
      encodeByte ((a <<< 16 ||| b <<< 8 ||| c) >>> 6 &&& 63) ::
      encodeByte ((a <<< 16 ||| b <<< 8 ||| c) &&& 63) :: body, k, ?_, ?_, ?_, ?_⟩
    · rw [EncodeToString, e]
      rfl
    · simp only [List.mem_cons, not_or]
      exact ⟨(decodeMap_encodeByte _ (sextet_lt _ 18)).2.symm,
        (decodeMap_encodeByte _ (sextet_lt _ 12)).2.symm,
        (decodeMap_encodeByte _ (sextet_lt _ 6)).2.symm,
        (decodeMap_encodeByte _ hs3).2.symm, hb⟩
    · simp only [List.length_cons]
      omega
    · simp only [List.length_cons]
      omega
  | case2 a b =>
    refine ⟨[encodeByte ((a <<< 16 ||| b <<< 8) >>> 18 &&& 63),
      encodeByte ((a <<< 16 ||| b <<< 8) >>> 12 &&& 63),
      encodeByte ((a <<< 16 ||| b <<< 8) >>> 6 &&& 63)], 1, ?_, ?_, ?_, ?_⟩
    · rw [EncodeToString]
      rfl
    · simp only [List.mem_cons, List.mem_singleton, not_or, List.not_mem_nil, not_false_eq_true,
        and_true]
      exact ⟨(decodeMap_encodeByte _ (sextet_lt _ 18)).2.symm,
        (decodeMap_encodeByte _ (sextet_lt _ 12)).2.symm,
        (decodeMap_encodeByte _ (sextet_lt _ 6)).2.symm⟩
    · simp
    · simp
  | case3 a =>
    refine ⟨[encodeByte ((a <<< 16) >>> 18 &&& 63), encodeByte ((a <<< 16) >>> 12 &&& 63)], 2,
      ?_, ?_, ?_, ?_⟩
    · rw [EncodeToString]
      rfl
    · simp only [List.mem_cons, List.mem_singleton, not_or, List.not_mem_nil, not_false_eq_true,
        and_true]
      exact ⟨(decodeMap_encodeByte _ (sextet_lt _ 18)).2.symm,
        (decodeMap_encodeByte _ (sextet_lt _ 12)).2.symm⟩
    · simp
    · simp
  | case4 =>
    exact ⟨[], 0, by simp [EncodeToString], by simp, by simp, by simp⟩

/-- Trimming the padding leaves the bytes of the alphabet. -/
theorem TrimRight_append_replicate (body : Str) (k : Nat) (h : 61 ∉ body) :
    TrimRight (body ++ List.replicate k 61) 61 = body := by
  unfold TrimRight
  induction k with
  | zero =>
    rw [List.replicate_zero, List.append_nil, List.rdropWhile_eq_self_iff]
    intro hl hp
    simp only [decide_eq_true_eq] at hp
    exact h (hp ▸ List.getLast_mem hl)
  | succ k ih =>
    rw [List.replicate_succ', ← List.append_assoc, List.rdropWhile_concat_pos _ _ _ (by simp)]
    exact ih

/-- What `atobUrl` decodes after it has put the padding back. -/
theorem DecodeString_EncodeToString (s : Str) (hs : ∀ c ∈ s, c < 256) :
    DecodeString (EncodeToString s) = some (Except.ok s) := by
  obtain ⟨body, k, e, _, _, hl⟩ := EncodeToString_shape s
  have hlen : (EncodeToString s).length = 4 * ((s.length + 2) / 3) := by
    rw [e, List.length_append, List.length_replicate, hl]
  unfold DecodeString
  split
  · rename_i h0
    have : s = [] := by
      apply List.eq_nil_of_length_eq_zero
      omega
    rw [this]
  · have := decodeLoop_EncodeToString s hs ((EncodeToString s).length + 1) [] (by omega)
    rw [this, List.nil_append]

/-- Putting the padding back after trimming it gives the encoding again. -/
theorem pad_btoaUrl (s : Str) :
    (if (btoaUrl s).length % 4 > 0 then
      btoaUrl s ++ List.replicate (4 - (btoaUrl s).length % 4) 61 else btoaUrl s) =
      EncodeToString s := by
  obtain ⟨body, k, e, hb, hk, _⟩ := EncodeToString_shape s
  have hbt : btoaUrl s = body := by
    rw [btoaUrl, e, TrimRight_append_replicate body k hb]
  rw [hbt, e]
  rcases hk with ⟨k0, h⟩ | ⟨k1, h⟩ | ⟨k2, h⟩
  · subst k0
    simp [h]
  · subst k1
    simp [h]
  · subst k2
    simp [h]

/-! ## The version comparator: claims -/

/-- C1: for two versions `x.y.z` or `x.y.z-stage` whose `x`, `y`, `z` are decimal
numerals without leading zeros that fit in an `int`, `Less(a, b)` returns true
exactly when the triple of numbers of `a` is greater than that of `b` (major,
then minor, then patch), or the triples are equal and the stage of `a` is
lexicographically greater than the stage of `b`.  And of the arrangements of
`["1.2.3", "1.10.0", "2.0.0", "1.2.10"]` the only one in which every earlier
element is `Less` than every later one is
`["2.0.0", "1.10.0", "1.2.10", "1.2.3"]`. -/
theorem C1_less_numerals (x y z x' y' z' : Str) (sa sb : Option Str)
    (hx : isNumeral x = true) (hy : isNumeral y = true) (hz : isNumeral z = true)
    (hx' : isNumeral x' = true) (hy' : isNumeral y' = true) (hz' : isNumeral z' = true) :
    lessStr (mkVersion x y z sa) (mkVersion x' y' z' sb) =
      some (decide
        (tripleGt (decVal x) (decVal y) (decVal z) (decVal x') (decVal y') (decVal z') ∨
          (decVal x = decVal x' ∧ decVal y = decVal y' ∧ decVal z = decVal z' ∧
            strGt (stageOf sa) (stageOf sb) = true)))
    ∧ ∀ l : List Str,
        l.Perm [bytes "1.2.3", bytes "1.10.0", bytes "2.0.0", bytes "1.2.10"] →
        (inOrder l ↔ l = [bytes "2.0.0", bytes "1.10.0", bytes "1.2.10", bytes "1.2.3"]) := by
  constructor
  · obtain ⟨ax, bx⟩ := isNumeral_no_sep x hx
    obtain ⟨ay, by'⟩ := isNumeral_no_sep y hy
    obtain ⟨az, bz⟩ := isNumeral_no_sep z hz
    obtain ⟨ax', bx'⟩ := isNumeral_no_sep x' hx'
    obtain ⟨ay', by''⟩ := isNumeral_no_sep y' hy'
    obtain ⟨az', bz'⟩ := isNumeral_no_sep z' hz'
    rw [lessStr_three _ _ x y z x' y' z' (components_mkVersion x y z sa ax ay az bx by' bz)
      (components_mkVersion x' y' z' sb ax' ay' az' bx' by'' bz'),
      stagePart_mkVersion x y z sa ax ay az, stagePart_mkVersion x' y' z' sb ax' ay' az',
      cmpThree_numerals x y z _ x' y' z' _ hx hy hz hx' hy' hz']
  · intro l hl
    have hp : [bytes "1.2.3", bytes "1.10.0", bytes "2.0.0", bytes "1.2.10"].Perm
        [bytes "2.0.0", bytes "1.10.0", bytes "1.2.10", bytes "1.2.3"] := by decide
    exact inOrder_unique l _ (hl.trans hp) (by decide)

/-- C1, at the versions `1.10.0-rc` and `1.9.0`. -/
theorem C1_less_numerals_witness :
    lessStr (mkVersion (bytes "1") (bytes "10") (bytes "0") (some (bytes "rc")))
        (mkVersion (bytes "1") (bytes "9") (bytes "0") none) =
      some (decide
        (tripleGt (decVal (bytes "1")) (decVal (bytes "10")) (decVal (bytes "0"))
            (decVal (bytes "1")) (decVal (bytes "9")) (decVal (bytes "0")) ∨
          (decVal (bytes "1") = decVal (bytes "1") ∧ decVal (bytes "10") = decVal (bytes "9") ∧
            decVal (bytes "0") = decVal (bytes "0") ∧
            strGt (stageOf (some (bytes "rc"))) (stageOf none) = true))) :=
  (C1_less_numerals (bytes "1") (bytes "10") (bytes "0") (bytes "1") (bytes "9") (bytes "0")
    (some (bytes "rc")) none (by decide) (by decide) (by decide) (by decide) (by decide)
    (by decide)).1

/-- C4, as stated, fails at `a = "1.2-b"`, `b = "1.2-a"`: the numeric part `1.2`
of each has two components, `a` is lexicographically greater than `b`, and
`Less(a, b)` returns false (the numeric parts are the same text). -/
theorem C4_counterexample :
    ((components (bytes "1.2-b")).length ≠ 3 ∨ (components (bytes "1.2-a")).length ≠ 3) ∧
    strGt (bytes "1.2-b") (bytes "1.2-a") = true ∧
    lessStr (bytes "1.2-b") (bytes "1.2-a") = some false := by
  decide

/-- C4, amended: when the part before the first `-` of either string does not
split on `.` into exactly three components, `Less(a, b)` returns true exactly
when the part of `a` before its first `-` is lexicographically greater than the
part of `b` before its first `-`; what follows the first `-` is not compared. -/
theorem C4_fallback_numeric_parts (a b : Str)
    (h : (components a).length ≠ 3 ∨ (components b).length ≠ 3) :
    lessStr a b = some (strGt (numericPart a) (numericPart b)) :=
  lessStr_fallback a b h

/-- C4, amended, at `a = "1.2-b"` and `b = "1.2-a"`. -/
theorem C4_fallback_numeric_parts_witness :
    lessStr (bytes "1.2-b") (bytes "1.2-a") =
      some (strGt (numericPart (bytes "1.2-b")) (numericPart (bytes "1.2-a"))) :=
  C4_fallback_numeric_parts (bytes "1.2-b") (bytes "1.2-a") (by decide)

/-- C5, as stated, fails at two inputs.  At `a = "01.2.0"`, `b = "1.1.0"` the
integer values first differ at the minor position, where `a` has the larger one,
and `Less(a, b)` returns false: the major components differ as texts and have one
value.  At `a = "99999999999999999999.0.0"`, `b = "1.0.0"` the major component of
`a` does not parse; counted as 0 it is smaller than 1, and `Less(a, b)` returns
true. -/
theorem C5_counterexample :
    (components (bytes "01.2.0") = [bytes "01", bytes "2", bytes "0"] ∧
      components (bytes "1.1.0") = [bytes "1", bytes "1", bytes "0"] ∧
      tripleGt (atoiOrZero (bytes "01")) (atoiOrZero (bytes "2")) (atoiOrZero (bytes "0"))
        (atoiOrZero (bytes "1")) (atoiOrZero (bytes "1")) (atoiOrZero (bytes "0")) ∧
      lessStr (bytes "01.2.0") (bytes "1.1.0") = some false) ∧
    (components (bytes "99999999999999999999.0.0") =
        [bytes "99999999999999999999", bytes "0", bytes "0"] ∧
      components (bytes "1.0.0") = [bytes "1", bytes "0", bytes "0"] ∧
      (Atoi (bytes "99999999999999999999")).2 = some NumError.ErrRange ∧
      ¬ tripleGt (atoiOrZero (bytes "99999999999999999999")) (atoiOrZero (bytes "0"))
        (atoiOrZero (bytes "0")) (atoiOrZero (bytes "1")) (atoiOrZero (bytes "0"))
        (atoiOrZero (bytes "0")) ∧
      ¬ (atoiOrZero (bytes "99999999999999999999") = atoiOrZero (bytes "1")) ∧
      lessStr (bytes "99999999999999999999.0.0") (bytes "1.0.0") = some true) := by
  decide

/-- C5, amended: when both numeric parts have exactly three components,
`Less(a, b)` returns true exactly when, at the first of the three positions
(major, minor, patch) at which the component texts differ, the component of `a`
has the larger integer value (the value `strconv.Atoi` returns: 0 with a syntax
error, the largest `int` with a range error), or the three component texts are
equal and the stage of `a` is lexicographically greater than the stage of `b`. -/
theorem C5_less_three_components (a b x y z x' y' z' : Str)
    (ha : components a = [x, y, z]) (hb : components b = [x', y', z']) :
    lessStr a b = some (decide
      ((x ≠ x' ∧ componentValue x > componentValue x') ∨
        (x = x' ∧ y ≠ y' ∧ componentValue y > componentValue y') ∨
        (x = x' ∧ y = y' ∧ z ≠ z' ∧ componentValue z > componentValue z') ∨
        (x = x' ∧ y = y' ∧ z = z' ∧ strGt (stagePart a) (stagePart b) = true))) := by
  have ma : ∀ p ∈ [x, y, z], 45 ∉ p := fun p hp => not_mem_component a p (ha ▸ hp)
  have mb : ∀ p ∈ [x', y', z'], 45 ∉ p := fun p hp => not_mem_component b p (hb ▸ hp)
  rw [lessStr_three a b x y z x' y' z' ha hb,
    cmpThree_eq_componentValue x y z _ x' y' z' _ (ma x (by simp)) (ma y (by simp))
      (ma z (by simp)) (mb x' (by simp)) (mb y' (by simp)) (mb z' (by simp))]

/-- C5, amended, at `a = "01.2.0"` and `b = "1.1.0"`. -/
theorem C5_less_three_components_witness :
    lessStr (bytes "01.2.0") (bytes "1.1.0") = some (decide
      ((bytes "01" ≠ bytes "1" ∧ componentValue (bytes "01") > componentValue (bytes "1")) ∨
        (bytes "01" = bytes "1" ∧ bytes "2" ≠ bytes "1" ∧
          componentValue (bytes "2") > componentValue (bytes "1")) ∨
        (bytes "01" = bytes "1" ∧ bytes "2" = bytes "1" ∧ bytes "0" ≠ bytes "0" ∧
          componentValue (bytes "0") > componentValue (bytes "0")) ∨
        (bytes "01" = bytes "1" ∧ bytes "2" = bytes "1" ∧ bytes "0" = bytes "0" ∧
          strGt (stagePart (bytes "01.2.0")) (stagePart (bytes "1.1.0")) = true))) :=
  C5_less_three_components (bytes "01.2.0") (bytes "1.1.0") (bytes "01") (bytes "2") (bytes "0")
    (bytes "1") (bytes "1") (bytes "0") (by decide) (by decide)

/-- C6: for a numeric part `t` without `-` and of exactly three components, and
all stages, `Less(t-s1, t-s2)` returns true exactly when `s1` is lexicographically
greater than `s2`, a version without `-` having the empty stage; so a pre-release
`t-s` with `s` not empty is before the release `t`, and
`["1.0.0-beta", "1.0.0-alpha", "1.0.0"]` is in sorted order. -/
theorem C6_stage_tiebreak (t : Str) (s1 s2 : Option Str) (h45 : 45 ∉ t)
    (h3 : (Split t 46).length = 3) :
    lessStr (withStage t s1) (withStage t s2) = some (strGt (stageOf s1) (stageOf s2)) ∧
    (∀ s : Str, s ≠ [] →
      lessStr (withStage t (some s)) (withStage t none) = some true ∧
      lessStr (withStage t none) (withStage t (some s)) = some false) ∧
    inOrder [bytes "1.0.0-beta", bytes "1.0.0-alpha", bytes "1.0.0"] := by
  have main : ∀ u v : Option Str,
      lessStr (withStage t u) (withStage t v) = some (strGt (stageOf u) (stageOf v)) := by
    intro u v
    obtain ⟨x, y, z, e⟩ := List.length_eq_three.mp h3
    have cu : components (withStage t u) = [x, y, z] := by
      rw [components, numericPart_withStage t u h45, e]
    have cv : components (withStage t v) = [x, y, z] := by
      rw [components, numericPart_withStage t v h45, e]
    rw [lessStr_three _ _ x y z x y z cu cv, stagePart_withStage t u h45,
      stagePart_withStage t v h45]
    simp [cmpThree]
  refine ⟨main s1 s2, ?_, by decide⟩
  intro s hs
  rw [main (some s) none, main none (some s)]
  simp only [stageOf, Option.getD, strGt_nil_right, strGt_nil_left]
  simp [hs]

/-- C6, at `t = "1.0.0"` with the stages `beta` and `alpha`. -/
theorem C6_stage_tiebreak_witness :
    lessStr (withStage (bytes "1.0.0") (some (bytes "beta")))
        (withStage (bytes "1.0.0") (some (bytes "alpha"))) =
      some (strGt (stageOf (some (bytes "beta"))) (stageOf (some (bytes "alpha")))) :=
  (C6_stage_tiebreak (bytes "1.0.0") (some (bytes "beta")) (some (bytes "alpha")) (by decide)
    (by decide)).1

/-- C7, as stated, fails at the well-formed versions `a = "1.0.0-b"`,
`b = "01.0.0"`, `c = "1.0.0-a"`: neither of `a`, `b` is `Less` than the other,
neither of `b`, `c` is, and `Less(a, c)` returns true, so incomparability is not
transitive. -/
theorem C7_counterexample :
    wellFormed (bytes "1.0.0-b") = true ∧ wellFormed (bytes "01.0.0") = true ∧
    wellFormed (bytes "1.0.0-a") = true ∧
    incomparable (bytes "1.0.0-b") (bytes "01.0.0") ∧
    incomparable (bytes "01.0.0") (bytes "1.0.0-a") ∧
    lessStr (bytes "1.0.0-b") (bytes "1.0.0-a") = some true ∧
    ¬ incomparable (bytes "1.0.0-b") (bytes "1.0.0-a") := by
  decide

/-- C7, amended: on well-formed versions `Less` is irreflexive and transitive;
on the well-formed versions whose components have no leading zeros and fit in an
`int`, incomparability is transitive too, so that `Less` is a strict weak
ordering there. -/
theorem C7_strict_weak_order (a b c : Str) (ha : wellFormed a = true)
    (hb : wellFormed b = true) (hc : wellFormed c = true) :
    lessStr a a = some false ∧
    (lessStr a b = some true → lessStr b c = some true → lessStr a c = some true) ∧
    (isCanonical a = true → isCanonical b = true → isCanonical c = true →
      incomparable a b → incomparable b c → incomparable a c) := by
  simp only [wellFormed, Bool.and_eq_true, decide_eq_true_eq] at ha hb hc
  refine ⟨lessStr_irrefl a, lessStr_trans_three a b c ha.1 hb.1 hc.1, ?_⟩
  intro ka kb kc hab hbc
  obtain ⟨e1, e2⟩ := incomparable_canonical a b ka kb hab
  obtain ⟨e3, e4⟩ := incomparable_canonical b c kb kc hbc
  have ec : components c = components a := (e1.trans e3).symm
  have es : stagePart c = stagePart a := (e2.trans e4).symm
  constructor
  · rw [lessStr_congr a a c a rfl rfl ec es ha.1 hc.1]
    exact lessStr_irrefl a
  · rw [lessStr_congr c a a a ec es rfl rfl hc.1 ha.1]
    exact lessStr_irrefl a

/-- C7, amended, at `"2.0.0"`, `"1.0.0-b"`, `"1.0.0-a"` (a chain) and at `"1.0.0"`,
`"1.0.0-"`, `"1.0.0"` (incomparable versions). -/
theorem C7_strict_weak_order_witness :
    (wellFormed (bytes "2.0.0") = true ∧ wellFormed (bytes "1.0.0-b") = true ∧
      wellFormed (bytes "1.0.0-a") = true ∧
      lessStr (bytes "2.0.0") (bytes "1.0.0-b") = some true ∧
      lessStr (bytes "1.0.0-b") (bytes "1.0.0-a") = some true ∧
      lessStr (bytes "2.0.0") (bytes "1.0.0-a") = some true) ∧
    (isCanonical (bytes "1.0.0") = true ∧ isCanonical (bytes "1.0.0-") = true ∧
      incomparable (bytes "1.0.0") (bytes "1.0.0-") ∧
      incomparable (bytes "1.0.0-") (bytes "1.0.0") ∧
      incomparable (bytes "1.0.0") (bytes "1.0.0")) :=
  ⟨⟨by decide, by decide, by decide, by decide, by decide,
      (C7_strict_weak_order (bytes "2.0.0") (bytes "1.0.0-b") (bytes "1.0.0-a") (by decide)
        (by decide) (by decide)).2.1 (by decide) (by decide)⟩,
    ⟨by decide, by decide, by decide, by decide,
      (C7_strict_weak_order (bytes "1.0.0") (bytes "1.0.0-") (bytes "1.0.0") (by decide)
        (by decide) (by decide)).2.2 (by decide) (by decide) (by decide) (by decide)
        (by decide)⟩⟩

/-- C8: for strings `a` and `b` without `-`, when either has not exactly three
dot-separated components `Less(a, b)` returns true exactly when `a` is
lexicographically greater than `b`; every pair of `["1.2", "1.2.3", "abc"]` is
decided by that comparison, and of the arrangements of that list the only one in
which every earlier element is `Less` than every later one is
`["abc", "1.2.3", "1.2"]`. -/
theorem C8_fallback_whole_string (a b : Str) (ha : 45 ∉ a) (hb : 45 ∉ b)
    (h : (Split a 46).length ≠ 3 ∨ (Split b 46).length ≠ 3) :
    lessStr a b = some (strGt a b) ∧
    (∀ u ∈ [bytes "1.2", bytes "1.2.3", bytes "abc"],
      ∀ v ∈ [bytes "1.2", bytes "1.2.3", bytes "abc"], lessStr u v = some (strGt u v)) ∧
    ∀ l : List Str, l.Perm [bytes "1.2", bytes "1.2.3", bytes "abc"] →
      (inOrder l ↔ l = [bytes "abc", bytes "1.2.3", bytes "1.2"]) := by
  refine ⟨?_, by decide, ?_⟩
  · have h' : (components a).length ≠ 3 ∨ (components b).length ≠ 3 := by
      simpa only [components, numericPart_of_not_mem a ha, numericPart_of_not_mem b hb] using h
    rw [lessStr_fallback a b h', numericPart_of_not_mem a ha, numericPart_of_not_mem b hb]
  · intro l hl
    have hp : [bytes "1.2", bytes "1.2.3", bytes "abc"].Perm
        [bytes "abc", bytes "1.2.3", bytes "1.2"] := by decide
    exact inOrder_unique l _ (hl.trans hp) (by decide)

/-- C8, at `a = "1.2.3"` and `b = "1.2"`. -/
theorem C8_fallback_whole_string_witness :
    lessStr (bytes "1.2.3") (bytes "1.2") = some (strGt (bytes "1.2.3") (bytes "1.2")) :=
  (C8_fallback_whole_string (bytes "1.2.3") (bytes "1.2") (by decide) (by decide)
    (by decide)).1

/-- C9, as stated, fails at two inputs.  At `a = "v2.0.0"`, `b = "1.0.0"` a
component (`v2`) is not a decimal number, `a` is lexicographically greater than
`b`, and `Less(a, b)` returns false: both have three components and `v2` counts
as 0.  At `a = "v1.2-b"`, `b = "v1.2-a"` a component (`v1`) is not a decimal
number, `a` is lexicographically greater than `b`, and `Less(a, b)` returns
false: only the numeric parts are compared. -/
theorem C9_counterexample :
    ((components (bytes "v2.0.0") ++ components (bytes "1.0.0")).any
        (fun c => !isDecimal c) = true ∧
      strGt (bytes "v2.0.0") (bytes "1.0.0") = true ∧
      lessStr (bytes "v2.0.0") (bytes "1.0.0") = some false) ∧
    ((components (bytes "v1.2-b") ++ components (bytes "v1.2-a")).any
        (fun c => !isDecimal c) = true ∧
      strGt (bytes "v1.2-b") (bytes "v1.2-a") = true ∧
      lessStr (bytes "v1.2-b") (bytes "v1.2-a") = some false) := by
  decide

/-- C9, amended: a version with a component that is not a decimal number falls
back to string comparison only when a numeric part has not exactly three
components, and then the numeric parts are compared.  For all `a` and `b` where
some component of either numeric part is not a decimal number: when either
numeric part has not exactly three components, `Less(a, b)` returns true exactly
when the numeric part of `a` is lexicographically greater than that of `b`; when
both have three components, `Less(a, b)` is decided at the first position at
which the component texts differ, by the integer values, or by the stages when
the texts are equal; there a component that is empty or starts with a byte that
is neither a digit nor `+` counts as 0.  One of `a`, `b` is then not well-formed,
and is compared all the same. -/
theorem C9_non_numeric_component (a b : Str)
    (h : (components a ++ components b).any (fun c => !isDecimal c) = true) :
    ((components a).length ≠ 3 ∨ (components b).length ≠ 3 →
      lessStr a b = some (strGt (numericPart a) (numericPart b))) ∧
    (∀ x y z x' y' z' : Str, components a = [x, y, z] → components b = [x', y', z'] →
      lessStr a b = some (decide
        ((x ≠ x' ∧ componentValue x > componentValue x') ∨
          (x = x' ∧ y ≠ y' ∧ componentValue y > componentValue y') ∨
          (x = x' ∧ y = y' ∧ z ≠ z' ∧ componentValue z > componentValue z') ∨
          (x = x' ∧ y = y' ∧ z = z' ∧ strGt (stagePart a) (stagePart b) = true)))) ∧
    (∀ c ∈ components a ++ components b,
      (c = [] ∨ ∃ x xs, c = x :: xs ∧ isDigit x = false ∧ x ≠ 43) → componentValue c = 0) ∧
    (wellFormed a = false ∨ wellFormed b = false) := by
  refine ⟨lessStr_fallback a b, ?_, ?_, ?_⟩
  · intro x y z x' y' z' ea eb
    have ma : ∀ p ∈ [x, y, z], 45 ∉ p := fun p hp => not_mem_component a p (ea ▸ hp)
    have mb : ∀ p ∈ [x', y', z'], 45 ∉ p := fun p hp => not_mem_component b p (eb ▸ hp)
    rw [lessStr_three a b x y z x' y' z' ea eb,
      cmpThree_eq_componentValue x y z _ x' y' z' _ (ma x (by simp)) (ma y (by simp))
        (ma z (by simp)) (mb x' (by simp)) (mb y' (by simp)) (mb z' (by simp))]
  · intro c hc hform
    rcases hform with e | ⟨x, xs, e, hx, h43⟩
    · subst e; decide
    · have h45c : 45 ∉ c := by
        rcases List.mem_append.mp hc with m | m
        · exact not_mem_component a c m
        · exact not_mem_component b c m
      have h45 : x ≠ 45 := by
        intro e'
        apply h45c
        rw [e, e']
        simp
      unfold componentValue
      rw [e, Atoi_leading_text x xs hx h43 h45]
  · obtain ⟨c, hc, hd⟩ := List.any_eq_true.mp h
    have hd' : isDecimal c = false := by simpa using hd
    have key : ∀ v : Str, c ∈ components v → wellFormed v = false := by
      intro v hv
      by_contra hw
      simp only [Bool.not_eq_false, wellFormed, Bool.and_eq_true, List.all_eq_true] at hw
      rw [hw.2 c hv] at hd'
      exact Bool.noConfusion hd'
    rcases List.mem_append.mp hc with m | m
    · exact Or.inl (key a m)
    · exact Or.inr (key b m)

/-- C9, amended, at `a = "v2.0.0"` and `b = "1.0.0"`: `v2` counts as 0. -/
theorem C9_non_numeric_component_witness :
    (components (bytes "v2.0.0") ++ components (bytes "1.0.0")).any
        (fun c => !isDecimal c) = true ∧
    componentValue (bytes "v2") = 0 ∧
    lessStr (bytes "1.0.0") (bytes "v2.0.0") = some true :=
  ⟨by decide,
    (C9_non_numeric_component (bytes "v2.0.0") (bytes "1.0.0") (by decide)).2.2.1 (bytes "v2")
      (by decide) (Or.inr ⟨118, bytes "2", by decide, by decide, by decide⟩),
    by decide⟩

/-! ## The string set: claims -/

/-- C2: after any finite sequence of `Add` calls on a new set (empty or not, with
or without repeated keys) `Size()` is the number of distinct keys of the
sequence, and `Has(k)` is true for the keys of the sequence and false for every
other key. -/
theorem C2_set_uniqueness (keys : List Str) :
    (addAll keys).Size = keys.dedup.length ∧
    (addAll keys).Size = keys.toFinset.card ∧
    ∀ k : Str, (addAll keys).Has k = decide (k ∈ keys) := by
  have hlen : (addAll keys).Size = keys.dedup.length := (perm_addAll_dedup keys).length_eq
  refine ⟨hlen, ?_, ?_⟩
  · rw [hlen, List.card_toFinset]
  · intro k
    simp only [stringSet.Has, mapHas, mem_addAll]

/-- C3: on a set reached from `newStringSet` by `Add` calls, whatever the order
in which the loop of `Values()` visits the map, `Values()` returns a list of
`Size()` elements, without duplicate, whose elements are exactly the keys for
which `Has` is true, which are exactly the keys that were added. -/
theorem C3_values_snapshot (keys order : List Str)
    (h : rangeOrder (addAll keys).m order) :
    ∃ a : List Str, (addAll keys).Values order = some a ∧
      a.length = (addAll keys).Size ∧ a.Nodup ∧
      (∀ k : Str, k ∈ a ↔ (addAll keys).Has k = true) ∧
      (∀ k : Str, k ∈ a ↔ k ∈ keys) := by
  unfold rangeOrder at h
  refine ⟨order, Values_eq _ _ h.length_eq, h.length_eq, ?_, ?_, ?_⟩
  · exact h.nodup_iff.mpr (nodup_addAll keys)
  · intro k
    simp only [stringSet.Has, mapHas, decide_eq_true_eq]
    exact h.mem_iff
  · intro k
    rw [h.mem_iff, mem_addAll]

/-- C3, at the calls `Add("b")`, `Add("a")`, `Add("b")` and the loop visiting
`"a"` before `"b"`. -/
theorem C3_values_snapshot_witness :
    rangeOrder (addAll [bytes "b", bytes "a", bytes "b"]).m [bytes "a", bytes "b"] ∧
    ∃ a : List Str,
      (addAll [bytes "b", bytes "a", bytes "b"]).Values [bytes "a", bytes "b"] = some a ∧
      a.length = (addAll [bytes "b", bytes "a", bytes "b"]).Size ∧ a.Nodup ∧
      (∀ k : Str, k ∈ a ↔ (addAll [bytes "b", bytes "a", bytes "b"]).Has k = true) ∧
      (∀ k : Str, k ∈ a ↔ k ∈ [bytes "b", bytes "a", bytes "b"]) :=
  ⟨by decide, C3_values_snapshot [bytes "b", bytes "a", bytes "b"] [bytes "a", bytes "b"]
    (by decide)⟩

/-- C10: `Add(k)` on a set that has `k` changes nothing: the set has the same
`Size()` and the same members, its state is the same; and, on any set, `Add(k)`
twice leaves the state that `Add(k)` once leaves. -/
theorem C10_add_present (s : stringSet) (k : Str) (h : s.Has k = true) :
    (s.Add k).Size = s.Size ∧ (∀ j : Str, (s.Add k).Has j = s.Has j) ∧ s.Add k = s ∧
    ∀ (t : stringSet) (j : Str), (t.Add j).Add j = t.Add j := by
  have hk : k ∈ s.m := by simpa [stringSet.Has, mapHas] using h
  have e : s.Add k = s := by
    simp only [stringSet.Add, mapSet_of_mem s.m k hk]
  refine ⟨by rw [e], fun j => by rw [e], e, ?_⟩
  intro t j
  have hj : j ∈ mapSet t.m j := (mem_mapSet t.m j j).mpr (Or.inr rfl)
  simp only [stringSet.Add, mapSet_of_mem _ j hj]

/-- C10, at the set after `Add("a")`, `Add("b")` and the key `"a"`. -/
theorem C10_add_present_witness :
    (addAll [bytes "a", bytes "b"]).Has (bytes "a") = true ∧
    ((addAll [bytes "a", bytes "b"]).Add (bytes "a")).Size = (addAll [bytes "a", bytes "b"]).Size ∧
    (addAll [bytes "a", bytes "b"]).Add (bytes "a") = addAll [bytes "a", bytes "b"] :=
  ⟨by decide,
    (C10_add_present (addAll [bytes "a", bytes "b"]) (bytes "a") (by decide)).1,
    (C10_add_present (addAll [bytes "a", bytes "b"]) (bytes "a") (by decide)).2.2.1⟩

/-- C11: `Add(k)` touches only `k` and the set only grows.  For keys `j ≠ k`,
`Has(j)` is the same before and after `Add(k)`; `Has(k)` is true after `Add(k)`;
when `k` was absent `Size()` increases by exactly 1; a member stays a member
after any further sequence of operations, and `Size()` never decreases. -/
theorem C11_add_frame (s : stringSet) (k j : Str) (hjk : j ≠ k) :
    (s.Add k).Has j = s.Has j ∧
    (s.Add k).Has k = true ∧
    (s.Has k = false → (s.Add k).Size = s.Size + 1) ∧
    (∀ ops : List Op, s.Has j = true → (applyOps s ops).Has j = true) ∧
    (∀ ops : List Op, s.Size ≤ (applyOps s ops).Size) := by
  refine ⟨?_, ?_, ?_, ?_, ?_⟩
  · simp only [stringSet.Has, stringSet.Add, mapHas, mem_mapSet, hjk, or_false]
  · simp only [stringSet.Has, stringSet.Add, mapHas, mem_mapSet, or_true, decide_True]
  · intro h
    have hk : k ∉ s.m := by simpa [stringSet.Has, mapHas] using h
    exact length_mapSet_of_not_mem s.m k hk
  · intro ops h
    exact Has_applyOps ops s j h
  · intro ops
    exact Size_applyOps ops s

/-- C11, at the set after `Add("a")`, the new key `"b"` and the member `"a"`. -/
theorem C11_add_frame_witness :
    bytes "a" ≠ bytes "b" ∧
    ((addAll [bytes "a"]).Add (bytes "b")).Has (bytes "a") = (addAll [bytes "a"]).Has (bytes "a") ∧
    ((addAll [bytes "a"]).Add (bytes "b")).Size = (addAll [bytes "a"]).Size + 1 ∧
    (applyOps (addAll [bytes "a"]) [Op.Add (bytes "b"), Op.Values, Op.Add (bytes "a")]).Has
      (bytes "a") = true :=
  ⟨by decide,
    (C11_add_frame (addAll [bytes "a"]) (bytes "b") (bytes "a") (by decide)).1,
    (C11_add_frame (addAll [bytes "a"]) (bytes "b") (bytes "a") (by decide)).2.2.1 (by decide),
    (C11_add_frame (addAll [bytes "a"]) (bytes "b") (bytes "a") (by decide)).2.2.2.1 _
      (by decide)⟩

/-- C12: `versionSlice.Less` never fails.  For every slice and every pair of valid
indices it returns a boolean; the components 0, 1 and 2 of a split numeric part
are there whenever the part has three components, and when either part has not
three components the result is that of the fallback, which reads no component. -/
theorem C12_less_total (s : List Str) (i j : Nat) (hi : i < s.length) (hj : j < s.length) :
    (∃ r : Bool, versionSlice.Less s i j = some r) ∧
    (∀ a : Str, (components a).length = 3 →
      ∃ x y z, (components a)[0]? = some x ∧ (components a)[1]? = some y ∧
        (components a)[2]? = some z) ∧
    ((components (s.get ⟨i, hi⟩)).length ≠ 3 ∨ (components (s.get ⟨j, hj⟩)).length ≠ 3 →
      versionSlice.Less s i j =
        some (strGt (numericPart (s.get ⟨i, hi⟩)) (numericPart (s.get ⟨j, hj⟩)))) := by
  refine ⟨?_, ?_, ?_⟩
  · rw [Less_eq_lessStr s i j hi hj]
    exact lessStr_isSome _ _
  · intro a ha
    obtain ⟨x, y, z, e⟩ := components_length_three a ha
    exact ⟨x, y, z, by simp [e]⟩
  · intro h
    rw [Less_eq_lessStr s i j hi hj]
    exact lessStr_fallback _ _ h

/-- C12, at the slice `["1.2", "x..", ""]` and the indices 1 and 2. -/
theorem C12_less_total_witness :
    ∃ r : Bool, versionSlice.Less [bytes "1.2", bytes "x..", bytes ""] 1 2 = some r :=
  (C12_less_total [bytes "1.2", bytes "x..", bytes ""] 1 2 (by decide) (by decide)).1

/-- C14, as stated, fails at `a = "99999999999999999999.0.0"`, `b = "1.0.0"`: the
major components differ, `strconv.Atoi` fails on that of `a` (a range error) and
returns 1 on that of `b`; `Less(a, b)` returns true, not false, and `Less(b, a)`
returns false, not true. -/
theorem C14_counterexample :
    components (bytes "99999999999999999999.0.0") =
      [bytes "99999999999999999999", bytes "0", bytes "0"] ∧
    components (bytes "1.0.0") = [bytes "1", bytes "0", bytes "0"] ∧
    bytes "99999999999999999999" ≠ bytes "1" ∧
    (Atoi (bytes "99999999999999999999")).2 = some NumError.ErrRange ∧
    Atoi (bytes "1") = (1, none) ∧
    lessStr (bytes "99999999999999999999.0.0") (bytes "1.0.0") = some true ∧
    lessStr (bytes "1.0.0") (bytes "99999999999999999999.0.0") = some false := by
  decide

/-- C14, amended: in `versionSlice.Less` a component on which `strconv.Atoi` fails
is compared as the value `strconv.Atoi` returns with the error: 0 when the error
is a syntax error, the largest `int` when the error is a range error.  For
versions `a` and `b` of three components, at the first position (major, minor,
patch) at which the component texts differ: when `strconv.Atoi` fails on the
component of `a` with a syntax error, `Less(a, b)` is false and `Less(b, a)` is
true exactly when the value `strconv.Atoi` returns for the component of `b` is
greater than 0; when `strconv.Atoi` fails on the component of `a` with a range
error, `Less(a, b)` is true exactly when the value `strconv.Atoi` returns for the
component of `b` is less than the largest `int`, and `Less(b, a)` is false. -/
theorem C14_parse_failure (a b x y z x' y' z' : Str)
    (ha : components a = [x, y, z]) (hb : components b = [x', y', z']) :
    (x ≠ x' →
      ((Atoi x).2 = some NumError.ErrSyntax →
        lessStr a b = some false ∧ lessStr b a = some (decide ((Atoi x').1 > 0))) ∧
      ((Atoi x).2 = some NumError.ErrRange →
        lessStr a b = some (decide ((Atoi x').1 < 2 ^ (intSize - 1) - 1)) ∧
        lessStr b a = some false)) ∧
    (x = x' → y ≠ y' →
      ((Atoi y).2 = some NumError.ErrSyntax →
        lessStr a b = some false ∧ lessStr b a = some (decide ((Atoi y').1 > 0))) ∧
      ((Atoi y).2 = some NumError.ErrRange →
        lessStr a b = some (decide ((Atoi y').1 < 2 ^ (intSize - 1) - 1)) ∧
        lessStr b a = some false)) ∧
    (x = x' → y = y' → z ≠ z' →
      ((Atoi z).2 = some NumError.ErrSyntax →
        lessStr a b = some false ∧ lessStr b a = some (decide ((Atoi z').1 > 0))) ∧
      ((Atoi z).2 = some NumError.ErrRange →
        lessStr a b = some (decide ((Atoi z').1 < 2 ^ (intSize - 1) - 1)) ∧
        lessStr b a = some false)) ∧
    (∀ c ∈ [x, y, z],
      ((Atoi c).2 = some NumError.ErrSyntax → (Atoi c).1 = 0) ∧
      ((Atoi c).2 = some NumError.ErrRange → (Atoi c).1 = 2 ^ (intSize - 1) - 1)) := by
  have ma : ∀ p ∈ [x, y, z], 45 ∉ p := fun p hp => not_mem_component a p (ha ▸ hp)
  have mb : ∀ p ∈ [x', y', z'], 45 ∉ p := fun p hp => not_mem_component b p (hb ▸ hp)
  rw [lessStr_three a b x y z x' y' z' ha hb, lessStr_three b a x' y' z' x y z hb ha]
  obtain ⟨p1, p2, p3⟩ := cmpThree_position x y z (stagePart a) x' y' z' (stagePart b)
  obtain ⟨q1, q2, q3⟩ := cmpThree_position x' y' z' (stagePart b) x y z (stagePart a)
  refine ⟨?_, ?_, ?_, ?_⟩
  · intro h0
    rw [p1 h0, q1 (fun e => h0 e.symm)]
    exact failureRule_position x x' (ma x (by simp)) (mb x' (by simp))
  · intro h0 h1
    rw [p2 h0 h1, q2 h0.symm (fun e => h1 e.symm)]
    exact failureRule_position y y' (ma y (by simp)) (mb y' (by simp))
  · intro h0 h1 h2
    rw [p3 h0 h1 h2, q3 h0.symm h1.symm (fun e => h2 e.symm)]
    exact failureRule_position z z' (ma z (by simp)) (mb z' (by simp))
  · intro c hc
    exact Atoi_error_value c (ma c hc)

/-- C14, amended, at three inputs.  At `a = "v2.0.0"`, `b = "1.0.0"`, `strconv.Atoi`
fails on `v2` with a syntax error.  At `a = "1.99999999999999999999.0"`,
`b = "1.7.0"`, it fails on the minor of `a` with a range error.  At
`a = "99999999999999999999x.0.0"`, `b = "1.0.0"`, it fails on the major of `a`
with a range error too: the digits overflow before the `x` is read. -/
theorem C14_parse_failure_witness :
    ((Atoi (bytes "v2")).2 = some NumError.ErrSyntax ∧
      lessStr (bytes "v2.0.0") (bytes "1.0.0") = some false ∧
      lessStr (bytes "1.0.0") (bytes "v2.0.0") = some (decide ((Atoi (bytes "1")).1 > 0))) ∧
    ((Atoi (bytes "99999999999999999999")).2 = some NumError.ErrRange ∧
      lessStr (bytes "1.99999999999999999999.0") (bytes "1.7.0") =
        some (decide ((Atoi (bytes "7")).1 < 2 ^ (intSize - 1) - 1)) ∧
      lessStr (bytes "1.7.0") (bytes "1.99999999999999999999.0") = some false) ∧
    ((Atoi (bytes "99999999999999999999x")).2 = some NumError.ErrRange ∧
      lessStr (bytes "99999999999999999999x.0.0") (bytes "1.0.0") =
        some (decide ((Atoi (bytes "1")).1 < 2 ^ (intSize - 1) - 1)) ∧
      lessStr (bytes "1.0.0") (bytes "99999999999999999999x.0.0") = some false) :=
  ⟨⟨by decide,
      ((C14_parse_failure (bytes "v2.0.0") (bytes "1.0.0") (bytes "v2") (bytes "0") (bytes "0")
        (bytes "1") (bytes "0") (bytes "0") (by decide) (by decide)).1 (by decide)).1
        (by decide)⟩,
    ⟨by decide,
      ((C14_parse_failure (bytes "1.99999999999999999999.0") (bytes "1.7.0") (bytes "1")
        (bytes "99999999999999999999") (bytes "0") (bytes "1") (bytes "7") (bytes "0")
        (by decide) (by decide)).2.1 (by decide) (by decide)).2 (by decide)⟩,
    ⟨by decide,
      ((C14_parse_failure (bytes "99999999999999999999x.0.0") (bytes "1.0.0")
        (bytes "99999999999999999999x") (bytes "0") (bytes "0") (bytes "1") (bytes "0")
        (bytes "0") (by decide) (by decide)).1 (by decide)).2 (by decide)⟩⟩

/-- C15: `versionSlice.Less` is asymmetric on all strings: when `Less(a, b)` is
true, `Less(b, a)` is false; and `Less(c, c)` is false for every string `c`. -/
theorem C15_less_asymmetric (a b : Str) (h : lessStr a b = some true) :
    lessStr b a = some false ∧ lessStr b a ≠ some true ∧ ∀ c : Str, lessStr c c = some false := by
  have h1 := lessStr_asymm a b h
  refine ⟨h1, ?_, lessStr_irrefl⟩
  rw [h1]
  simp

/-- C15, at `a = "1.9"` and `b = "1.10.0"`. -/
theorem C15_less_asymmetric_witness :
    lessStr (bytes "1.9") (bytes "1.10.0") = some true ∧
    lessStr (bytes "1.10.0") (bytes "1.9") = some false :=
  ⟨by decide, (C15_less_asymmetric (bytes "1.9") (bytes "1.10.0") (by decide)).1⟩

/-- C16: `versionSlice.Less` is transitive on the strings whose part before the
first `-` has exactly three dot-separated components, whatever the components
hold: `Less(a, b)` and `Less(b, c)` imply `Less(a, c)`. -/
theorem C16_less_transitive (a b c : Str) (ha : (components a).length = 3)
    (hb : (components b).length = 3) (hc : (components c).length = 3)
    (h1 : lessStr a b = some true) (h2 : lessStr b c = some true) :
    lessStr a c = some true :=
  lessStr_trans_three a b c ha hb hc h1 h2

/-- C16, at `a = "2.."`, `b = "01.x.-rc"`, `c = "+0.1.1"`: empty components, a
leading zero, text that is not a number, a sign. -/
theorem C16_less_transitive_witness :
    (components (bytes "2..")).length = 3 ∧ (components (bytes "01.x.-rc")).length = 3 ∧
    (components (bytes "+0.1.1")).length = 3 ∧
    lessStr (bytes "2..") (bytes "01.x.-rc") = some true ∧
    lessStr (bytes "01.x.-rc") (bytes "+0.1.1") = some true ∧
    lessStr (bytes "2..") (bytes "+0.1.1") = some true :=
  ⟨by decide, by decide, by decide, by decide, by decide,
    C16_less_transitive (bytes "2..") (bytes "01.x.-rc") (bytes "+0.1.1") (by decide) (by decide)
      (by decide) (by decide) (by decide)⟩

/-- C17: over inputs that mix three-component and other strings `Less` is not an
ordering.  With `a = "1.10.0"`, `b = "1.9.0"`, `c = "1.9"`, `Less(a, b)`,
`Less(b, c)` and `Less(c, a)` are all true; no arrangement of the three is in
sorted order, and in every arrangement some later element is `Less` than some
earlier one. -/
theorem C17_less_cycle :
    lessStr (bytes "1.10.0") (bytes "1.9.0") = some true ∧
    lessStr (bytes "1.9.0") (bytes "1.9") = some true ∧
    lessStr (bytes "1.9") (bytes "1.10.0") = some true ∧
    (components (bytes "1.10.0")).length = 3 ∧ (components (bytes "1.9.0")).length = 3 ∧
    (components (bytes "1.9")).length ≠ 3 ∧
    ∀ l : List Str, l.Perm [bytes "1.10.0", bytes "1.9.0", bytes "1.9"] →
      ¬ inOrder l ∧ ∃ j, j < l.length ∧ ∃ i, i < j ∧ versionSlice.Less l j i = some true := by
  refine ⟨by decide, by decide, by decide, by decide, by decide, by decide, ?_⟩
  intro l hl
  have key : ∀ l ∈ List.permutations' [bytes "1.10.0", bytes "1.9.0", bytes "1.9"],
      ¬ inOrder l ∧ ∃ j, j < l.length ∧ ∃ i, i < j ∧ versionSlice.Less l j i = some true := by
    decide
  exact key l (List.mem_permutations'.mpr hl)

/-- C19: the import-path classes are disjoint: no string is both a remote and a
local import path. -/
theorem C19_import_classes_disjoint (p : Str) :
    ¬ (isRemoteImport p = true ∧ isLocalImport p = true) := by
  have r1 : bytes "https://" = 104 :: bytes "ttps://" := by decide
  have r2 : bytes "http://" = 104 :: bytes "ttp://" := by decide
  have l1 : bytes "file://" = 102 :: bytes "ile://" := by decide
  have l2 : bytes "/" = 47 :: [] := by decide
  have l3 : bytes "./" = 46 :: bytes "/" := by decide
  have l4 : bytes "../" = 46 :: bytes "./" := by decide
  have l5 : bytes "." = 46 :: [] := by decide
  have l6 : bytes ".." = 46 :: bytes "." := by decide
  rintro ⟨hr, hl⟩
  cases p with
  | nil =>
    rw [isRemoteImport, r1, r2] at hr
    simp [HasPrefix] at hr
  | cons c cs =>
    have hc : c = 104 := by
      rw [isRemoteImport, r1, r2, Bool.or_eq_true] at hr
      rcases hr with h | h
      · exact HasPrefix_cons_head _ _ _ _ h
      · exact HasPrefix_cons_head _ _ _ _ h
    subst hc
    rw [isLocalImport, l1, l2, l3, l4, l5, l6] at hl
    simp [HasPrefix] at hl

/-- C18: `atobUrl` undoes `btoaUrl`: for every string `s` of bytes, the empty one
included, `btoaUrl(s)` holds no `=`, and `atobUrl(btoaUrl(s))` returns `s` and no
error. -/
theorem C18_atobUrl_btoaUrl (s : Str) (hs : ∀ c ∈ s, c < 256) :
    61 ∉ btoaUrl s ∧ atobUrl (btoaUrl s) = some (s, none) := by
  constructor
  · obtain ⟨body, k, e, hb, _, _⟩ := EncodeToString_shape s
    rw [btoaUrl, e, TrimRight_append_replicate body k hb]
    exact hb
  · unfold atobUrl
    simp only []
    rw [pad_btoaUrl s, DecodeString_EncodeToString s hs]

/-- C18, at the strings `"hi?>"` (its encoding ends in two `=`), the empty string
and the bytes 255, 254, 0, 1, 128. -/
theorem C18_atobUrl_btoaUrl_witness :
    (btoaUrl (bytes "hi?>") = bytes "aGk_Pg" ∧
      atobUrl (btoaUrl (bytes "hi?>")) = some (bytes "hi?>", none)) ∧
    atobUrl (btoaUrl []) = some ([], none) ∧
    atobUrl (btoaUrl [255, 254, 0, 1, 128]) = some ([255, 254, 0, 1, 128], none) :=
  ⟨⟨by decide, (C18_atobUrl_btoaUrl (bytes "hi?>") (by decide)).2⟩,
    (C18_atobUrl_btoaUrl [] (by decide)).2,
    (C18_atobUrl_btoaUrl [255, 254, 0, 1, 128] (by decide)).2⟩

end Server
